import Mathlib

/-!
# Verification of the `todag` constraint graph engine (`src/lib/dag.js`)

A shallow embedding of the mutable DAG class from `src/lib/dag.js` (the
current revision, the one with the explicit duplicate-edge check and the
forward-reachability cycle check) together with the serialization layer of
`src/lib/store.js`, and proofs of the specification claims about it.

Modelling conventions:
* JavaScript `Set` of strings  ↦  `List String` kept duplicate-free, in
  insertion order (`Set.add` appends when absent, `Set.delete` filters).
* JavaScript `Map` from id to dependency set  ↦  `List (String × List String)`
  in insertion order (`Map.set` overwrites the first matching key, else
  appends; `Map.get` finds the first matching key; `Map.delete` filters).
* The JS methods mutate `this`; here each operation takes and returns a `DAG`.
* `addEdge` returns `false` from three distinct return sites (self-loop,
  duplicate, cycle) and `true` on success; the embedding tags each return
  site with an `AddOutcome` constructor, `.added` standing for `true` and
  the other three for the respective `false` sites.
-/

/-- JS `Set.add`: append the element if it is not already present. -/
def setAdd (s : List String) (x : String) : List String :=
  if x ∈ s then s else s ++ [x]

/-- JS `Set.delete`: remove the element (sets hold no duplicates). -/
def setDelete (s : List String) (x : String) : List String :=
  s.filter (fun y => y ≠ x)

/-- JS `Map.get`: the value at the first matching key, if any. -/
def mapGet (m : List (String × List String)) (k : String) : Option (List String) :=
  (m.find? (fun p => p.1 = k)).map Prod.snd

/-- JS `Map.set` for a fresh binding: the operations below only ever call it
with a key that is absent, in which case it appends. -/
def mapSetNew (m : List (String × List String)) (k : String) (v : List String) :
    List (String × List String) :=
  m ++ [(k, v)]

/-- Apply `f` to the value stored at key `k` (JS `this.edges.get(k)` followed
by an in-place `Set` mutation). Touches the first matching entry only. -/
def mapAdjust (m : List (String × List String)) (k : String) (f : List String → List String) :
    List (String × List String) :=
  match m with
  | [] => []
  | p :: rest => if p.1 = k then (p.1, f p.2) :: rest else p :: mapAdjust rest k f

/-- The DAG state: `this.nodes` (a `Set` of ids) and `this.edges`
(a `Map` from id to the `Set` of ids it depends on, i.e. its blockers). -/
structure DAG where
  edges : List (String × List String)
  nodes : List String
  deriving Repr, DecidableEq

/-- `new DAG()`. -/
def dagEmpty : DAG := ⟨[], []⟩

namespace DAG

/-- `addNode(nodeId)`. -/
def addNode (d : DAG) (nodeId : String) : DAG :=
  if nodeId ∈ d.nodes then d
  else { edges := mapSetNew d.edges nodeId [], nodes := d.nodes ++ [nodeId] }

/-- `removeNode(nodeId)`. -/
def removeNode (d : DAG) (nodeId : String) : DAG :=
  if nodeId ∈ d.nodes then
    { nodes := setDelete d.nodes nodeId
      edges := (d.edges.filter (fun p => p.1 ≠ nodeId)).map
        (fun p => (p.1, setDelete p.2 nodeId)) }
  else d

/-- `removeEdge(fromId, toId)`. -/
def removeEdge (d : DAG) (fromId toId : String) : DAG :=
  { d with edges := mapAdjust d.edges toId (fun deps => setDelete deps fromId) }

/-- `getDependencies(nodeId)`: `this.edges.get(nodeId) || new Set()`. -/
def getDependencies (d : DAG) (nodeId : String) : List String :=
  (mapGet d.edges nodeId).getD []

/-- `getDependents(nodeId)`: the ids whose dependency set contains `nodeId`,
in `this.edges` iteration order. -/
def getDependents (d : DAG) (nodeId : String) : List String :=
  (d.edges.filter (fun p => nodeId ∈ p.2)).map Prod.fst

/-- `getAllEdges()`: all `[fromId, toId]` pairs, outer loop over the map
entries, inner loop over each dependency set. -/
def getAllEdges (d : DAG) : List (String × String) :=
  (d.edges.map (fun p => p.2.map (fun fromId => (fromId, p.1)))).flatten

/-- One forward step of the derived dependents relation: `stepF d u v` holds
when the edge `(u, v)` is present, i.e. `v` depends on `u`. -/
def stepF (d : DAG) (u v : String) : Prop :=
  v ∈ getDependents d u

instance (d : DAG) (u v : String) : Decidable (stepF d u v) := by
  unfold stepF; infer_instance

/-- Every dependent of a node is a key of the `edges` map. -/
theorem mem_keys_of_mem_getDependents {d : DAG} {n x : String}
    (h : x ∈ getDependents d n) : x ∈ d.edges.map Prod.fst := by
  unfold getDependents at h
  rcases List.mem_map.mp h with ⟨p, hp, rfl⟩
  exact List.mem_map_of_mem Prod.fst (List.mem_of_mem_filter hp)

/-- Lexicographic decrease for the pairs used in termination measures. -/
theorem lexNat {a₁ a₂ b₁ b₂ : Nat} (ha : a₁ ≤ a₂) (hb : b₁ < b₂) :
    Prod.Lex (fun x y => x < y) (fun x y => x < y) (a₁, b₁) (a₂, b₂) := by
  rcases lt_or_eq_of_le ha with h | h
  · exact Prod.Lex.left _ _ h
  · subst h; exact Prod.Lex.right _ hb

/-- The `while` loop of `canReachForward`: a depth-first search over the
derived dependents relation, with an explicit stack and a `visited` set.
The JS array-stack grows and pops at its end; the list here grows and pops
at its head, which is the same LIFO discipline.  The JS loop body checks
each dependent against `targetId` before pushing it, so the boolean result
is `true` as soon as `targetId` is among the dependents of the popped node.
Termination: each iteration either visits a new node drawn from the stack
(shrinking the set of never-visited candidate nodes) or pops an
already-visited node (shrinking the stack). -/
def dfsLoop (d : DAG) (targetId : String) (visited stack : List String) : Bool :=
  match stack with
  | [] => false
  | current :: stackRest =>
    if current ∈ visited then dfsLoop d targetId visited stackRest
    else
      let visited' := visited ++ [current]
      let deps := getDependents d current
      if targetId ∈ deps then true
      else dfsLoop d targetId visited'
        ((deps.filter (fun x => x ∉ visited')).reverse ++ stackRest)
termination_by
  ((((d.edges.map Prod.fst).toFinset ∪ stack.toFinset) \ visited.toFinset).card,
    stack.length)
decreasing_by
  · refine lexNat (Finset.card_le_card ?_) (by simp)
    intro x hx
    simp only [Finset.mem_sdiff, Finset.mem_union, List.mem_toFinset, List.mem_cons] at hx ⊢
    exact ⟨hx.1.imp id Or.inr, hx.2⟩
  · apply Prod.Lex.left
    apply Finset.card_lt_card
    have hsub : (((d.edges.map Prod.fst).toFinset ∪
          ((List.filter (fun x => decide (x ∉ visited ++ [current]))
              (getDependents d current)).reverse ++
            stackRest).toFinset) \ (visited ++ [current]).toFinset) ⊆
        (((d.edges.map Prod.fst).toFinset ∪ (current :: stackRest).toFinset) \
          visited.toFinset) := by
      intro x hx
      simp only [Finset.mem_sdiff, Finset.mem_union, List.mem_toFinset, List.mem_append,
        List.mem_reverse, List.mem_filter, List.mem_cons, decide_not, decide_eq_true_eq,
        Bool.not_eq_true', not_or, List.mem_singleton] at hx ⊢
      obtain ⟨h1, h2, _h3⟩ := hx
      refine ⟨?_, h2⟩
      rcases h1 with h | h
      · exact Or.inl h
      · rcases h with ⟨hdep, _⟩ | h
        · exact Or.inl (mem_keys_of_mem_getDependents hdep)
        · exact Or.inr (Or.inr h)
    refine (Finset.ssubset_iff_of_subset hsub).mpr ⟨current, ?_, ?_⟩
    · simp only [Finset.mem_sdiff, Finset.mem_union, List.mem_toFinset]
      exact ⟨Or.inr (by simp), by assumption⟩
    · simp

/-- `canReachForward(startId, targetId)`: is there a forward path (following
dependents) from `startId` to `targetId`? -/
def canReachForward (d : DAG) (startId targetId : String) : Bool :=
  if startId = targetId then true
  else dfsLoop d targetId [] [startId]

/-- `wouldCreateCycle(fromId, toId)`. -/
def wouldCreateCycle (d : DAG) (fromId toId : String) : Bool :=
  canReachForward d toId fromId

/-- The four return sites of `addEdge`: `added` is the `return true` site,
the other three constructors tag the three distinct `return false` sites
(self-loop, duplicate edge, cycle). -/
inductive AddOutcome where
  | selfLoop
  | duplicate
  | cycle
  | added
  deriving Repr, DecidableEq

/-- `addEdge(fromId, toId)`: reject self-loops, auto-create missing endpoint
nodes, reject duplicates, reject cycles, otherwise insert `fromId` into
`toId`'s dependency set. -/
def addEdge (d : DAG) (fromId toId : String) : AddOutcome × DAG :=
  if fromId = toId then (.selfLoop, d)
  else
    let d₁ := addNode d fromId
    let d₂ := addNode d₁ toId
    if fromId ∈ (mapGet d₂.edges toId).getD [] then (.duplicate, d₂)
    else if wouldCreateCycle d₂ fromId toId then (.cycle, d₂)
    else (.added, { d₂ with edges := mapAdjust d₂.edges toId (fun deps => setAdd deps fromId) })

/-- JS `Array.prototype.indexOf` restricted to the uses in `canMoveTo`:
`none` models the `-1` result. -/
def indexOfOpt (l : List String) (x : String) : Option Nat :=
  l.findIdx? (fun y => y = x)

/-- `canMoveTo(nodeId, newIndex, currentOrder)`.  The JS loops return `false`
on the first violating entry, which is the same boolean as checking that
every entry is non-violating. -/
def canMoveTo (d : DAG) (nodeId : String) (newIndex : Nat) (currentOrder : List String) : Bool :=
  (getDependencies d nodeId).all (fun dep =>
    match indexOfOpt currentOrder dep with
    | none => true
    | some depIndex => decide (depIndex < newIndex)) &&
  (getDependents d nodeId).all (fun dependent =>
    match indexOfOpt currentOrder dependent with
    | none => true
    | some depIndex => decide (¬ depIndex < newIndex))

/-- JS `Map.get`/`Map.set` for the `Int`-valued in-degree map of
`topologicalSort` (`set` overwrites the first matching key, else appends). -/
def degGet (m : List (String × Int)) (k : String) : Option Int :=
  (m.find? (fun p => p.1 = k)).map Prod.snd

/-- `set` for the in-degree map: overwrite the first matching key, else append. -/
def degSet (m : List (String × Int)) (k : String) (v : Int) : List (String × Int) :=
  match m with
  | [] => [(k, v)]
  | p :: rest => if p.1 = k then (k, v) :: rest else p :: degSet rest k v

/-- The two initialization loops of `topologicalSort`: every node gets
in-degree `0`, then each stored edge increments its target's entry
(`inDegree.set(toId, (inDegree.get(toId) || 0) + 1)`). -/
def buildInDegree (d : DAG) : List (String × Int) :=
  let init := d.nodes.foldl (fun m n => degSet m n 0) []
  d.edges.foldl
    (fun m p => p.2.foldl (fun m' _ => degSet m' p.1 (((degGet m' p.1).getD 0) + 1)) m)
    init

/-- Count of entries with positive degree; the termination measure of the
Kahn loop. -/
def posCount (m : List (String × Int)) : Nat :=
  (m.filter (fun p => 0 < p.2)).length

/-- The inner `for (const dependent of dependents)` loop of
`topologicalSort`: decrement each dependent's in-degree and enqueue those
that reach zero.  The JS `inDegree.get(dependent)` is always present here
(every dependent has a nonempty dependency set and therefore received an
entry during initialization); the `getD 0` default mirrors that lookup. -/
def decrementStep (acc : List (String × Int) × List String) (dep : String) :
    List (String × Int) × List String :=
  let newDegree := ((degGet acc.1 dep).getD 0) - 1
  (degSet acc.1 dep newDegree, if newDegree = 0 then acc.2 ++ [dep] else acc.2)

theorem posCount_cons (p : String × Int) (l : List (String × Int)) :
    posCount (p :: l) = (if 0 < p.2 then 1 else 0) + posCount l := by
  simp only [posCount, List.filter_cons]
  by_cases h : 0 < p.2 <;> simp [h, Nat.add_comm]

/-- The number of positive-degree entries under a `degSet`: removed from the
old entry's contribution, added back from the new value's. -/
theorem posCount_degSet (m : List (String × Int)) (k : String) (v : Int) :
    (degGet m k = none →
      posCount (degSet m k v) = posCount m + (if 0 < v then 1 else 0)) ∧
    (∀ w, degGet m k = some w →
      posCount (degSet m k v) + (if 0 < w then 1 else 0) =
        posCount m + (if 0 < v then 1 else 0)) := by
  induction m with
  | nil =>
    refine ⟨fun _ => ?_, fun w hw => ?_⟩
    · rw [degSet, posCount_cons]
      simp [posCount]
    · simp [degGet] at hw
  | cons p rest ih =>
    by_cases hk : p.1 = k
    · refine ⟨fun hnone => ?_, fun w hw => ?_⟩
      · simp [degGet, List.find?, hk] at hnone
      · have hw' : w = p.2 := by
          simp [degGet, List.find?, hk] at hw
          omega
        subst hw'
        simp only [degSet, hk, if_pos]
        rw [posCount_cons, posCount_cons]
        ring
    · have hget : degGet (p :: rest) k = degGet rest k := by
        simp [degGet, List.find?, hk]
      have hset : degSet (p :: rest) k v = p :: degSet rest k v := by
        simp [degSet, hk]
      refine ⟨fun hnone => ?_, fun w hw => ?_⟩
      · rw [hset, posCount_cons, posCount_cons, ih.1 (hget ▸ hnone)]
        ring
      · rw [hset, posCount_cons, posCount_cons]
        have := ih.2 w (hget ▸ hw)
        omega

/-- One decrement never raises `posCount`, and enqueueing costs one
positive-degree entry: the measure `posCount + queue length` never grows. -/
theorem decrementStep_spec (acc : List (String × Int) × List String) (dep : String) :
    posCount (decrementStep acc dep).1 ≤ posCount acc.1 ∧
    posCount (decrementStep acc dep).1 + (decrementStep acc dep).2.length ≤
      posCount acc.1 + acc.2.length := by
  obtain ⟨m, q⟩ := acc
  simp only
  rcases hget : degGet m dep with _ | w
  · have h := (posCount_degSet m dep ((degGet m dep).getD 0 - 1)).1 hget
    rw [hget] at h
    simp only [Option.getD_none] at h
    have e1 : (decrementStep (m, q) dep).1 = degSet m dep (0 - 1) := by
      simp [decrementStep, hget]
    have e2 : (decrementStep (m, q) dep).2 = q := by
      simp [decrementStep, hget]
    rw [e1, e2]
    norm_num at h ⊢
    omega
  · have h := (posCount_degSet m dep ((degGet m dep).getD 0 - 1)).2 w hget
    rw [hget] at h
    simp only [Option.getD_some] at h
    have e1 : (decrementStep (m, q) dep).1 = degSet m dep (w - 1) := by
      simp [decrementStep, hget]
    have e2 : (decrementStep (m, q) dep).2 = if w - 1 = 0 then q ++ [dep] else q := by
      simp [decrementStep, hget]
    rw [e1, e2]
    by_cases hz : w - 1 = 0
    · have hw : w = 1 := by omega
      subst hw
      norm_num at h
      simp [hz]
      omega
    · have hle : (if 0 < w - 1 then (1:Nat) else 0) ≤ (if 0 < w then 1 else 0) := by
        by_cases hpos : 0 < w - 1
        · simp [hpos, show (0:Int) < w by omega]
        · simp [hpos]
      simp only [hz, if_neg, ite_false]
      split_ifs at h hle <;> omega

theorem foldDecrement_le (D : List String) (acc : List (String × Int) × List String) :
    posCount (D.foldl decrementStep acc).1 ≤ posCount acc.1 := by
  induction D generalizing acc with
  | nil => simp
  | cons dep Drest ih =>
    calc posCount ((dep :: Drest).foldl decrementStep acc).1
        = posCount (Drest.foldl decrementStep (decrementStep acc dep)).1 := by simp
      _ ≤ posCount (decrementStep acc dep).1 := ih _
      _ ≤ posCount acc.1 := (decrementStep_spec acc dep).1

theorem foldDecrement_sum (D : List String) (acc : List (String × Int) × List String) :
    posCount (D.foldl decrementStep acc).1 + (D.foldl decrementStep acc).2.length ≤
      posCount acc.1 + acc.2.length := by
  induction D generalizing acc with
  | nil => simp
  | cons dep Drest ih =>
    have h1 := ih (decrementStep acc dep)
    have h2 := (decrementStep_spec acc dep).2
    simp only [List.foldl_cons]
    omega

/-- The `while (queue.length > 0)` loop of `topologicalSort`: dequeue from
the front, append to the result, decrement each dependent's in-degree,
enqueue the dependents that reach in-degree zero. -/
def kahnLoop (d : DAG) (inDegree : List (String × Int)) (queue result : List String) :
    List String :=
  match queue with
  | [] => result
  | node :: queueRest =>
    let step := (getDependents d node).foldl decrementStep (inDegree, queueRest)
    kahnLoop d step.1 step.2 (result ++ [node])
termination_by (posCount inDegree, queue.length)
decreasing_by
  have h1 := foldDecrement_le (getDependents d current) (inDegree, stackRest)
  have h2 := foldDecrement_sum (getDependents d current) (inDegree, stackRest)
  simp only at h1 h2
  rcases lt_or_eq_of_le h1 with h | h
  · exact Prod.Lex.left _ _ h
  · rw [h]
    apply Prod.Lex.right
    simp only [List.length_cons]
    omega

/-- The Kahn phase of `topologicalSort`: in-degree initialization, seeding
the queue with the zero-in-degree entries in map order, then the main loop. -/
def kahnResult (d : DAG) : List String :=
  let inDegree := buildInDegree d
  let queue := (inDegree.filter (fun p => p.2 = 0)).map Prod.fst
  kahnLoop d inDegree queue []

/-- `topologicalSort()`: the Kahn phase, except that when it covers fewer
than `|nodes|` nodes (`result.length !== this.nodes.size`), the method logs
`console.warn('Cycle detected in DAG')` and returns `Array.from(this.nodes)`
— the plain node list in insertion order — instead. -/
def topologicalSort (d : DAG) : List String :=
  if (kahnResult d).length ≠ d.nodes.length then d.nodes else kahnResult d

end DAG

/-- The `{nodes, edges}` interchange form of `store.js`. -/
structure SerializedDAG where
  nodes : List String
  edges : List (String × String)
  deriving Repr, DecidableEq

/-- `serializeDAG(dagInstance)`: the edge loop is the same double loop as
`getAllEdges`, and `nodes` is `Array.from(dagInstance.nodes)`. -/
def serializeDAG (d : DAG) : SerializedDAG :=
  { nodes := d.nodes
    edges := (d.edges.map (fun p => p.2.map (fun fromId => (fromId, p.1)))).flatten }

/-- `deserializeDAG(data)`: replay `addNode` for every serialized node, then
`addEdge` for every serialized pair, in order. -/
def deserializeDAG (data : SerializedDAG) : DAG :=
  let d₁ := data.nodes.foldl (fun d n => d.addNode n) dagEmpty
  data.edges.foldl (fun d p => (d.addEdge p.1 p.2).2) d₁

/-- The four mutations of the engine, for quantifying over call sequences. -/
inductive Op where
  | addNode (id : String)
  | removeNode (id : String)
  | addEdge (fromId toId : String)
  | removeEdge (fromId toId : String)
  deriving Repr, DecidableEq

/-- Apply one mutation (the boolean result of `addEdge` is discarded, as a
caller issuing a call sequence would). -/
def applyOp (d : DAG) : Op → DAG
  | .addNode id => d.addNode id
  | .removeNode id => d.removeNode id
  | .addEdge fromId toId => (d.addEdge fromId toId).2
  | .removeEdge fromId toId => d.removeEdge fromId toId

/-- Apply a sequence of mutations starting from `d`. -/
def applyOps (d : DAG) (ops : List Op) : DAG :=
  ops.foldl applyOp d

/-! ## Basic facts about the set and map models -/

theorem setAdd_mem (s : List String) (x y : String) :
    y ∈ setAdd s x ↔ y ∈ s ∨ y = x := by
  unfold setAdd
  split
  · constructor
    · exact Or.inl
    · rintro (h | rfl) <;> [exact h; assumption]
  · simp

theorem setAdd_nodup {s : List String} (h : s.Nodup) (x : String) :
    (setAdd s x).Nodup := by
  unfold setAdd
  split
  · exact h
  · simpa [List.nodup_append] using ⟨h, by assumption⟩

theorem setDelete_mem (s : List String) (x y : String) :
    y ∈ setDelete s x ↔ y ∈ s ∧ y ≠ x := by
  simp [setDelete]

theorem setDelete_nodup {s : List String} (h : s.Nodup) (x : String) :
    (setDelete s x).Nodup :=
  h.filter _

theorem setDelete_of_not_mem {s : List String} {x : String} (h : x ∉ s) :
    setDelete s x = s := by
  unfold setDelete
  apply List.filter_eq_self.mpr
  intro y hy
  simp only [ne_eq, decide_eq_true_eq, decide_not, Bool.not_eq_true']
  rcases eq_or_ne y x with rfl | hne
  · exact absurd hy h
  · simp [hne]

theorem mapGet_cons_self {p : String × List String} {rest : List (String × List String)}
    {k : String} (h : p.1 = k) : mapGet (p :: rest) k = some p.2 := by
  simp [mapGet, List.find?, h]

theorem mapGet_cons_ne {p : String × List String} {rest : List (String × List String)}
    {k : String} (h : p.1 ≠ k) : mapGet (p :: rest) k = mapGet rest k := by
  simp [mapGet, List.find?, h]

theorem mapGet_none_iff (m : List (String × List String)) (k : String) :
    mapGet m k = none ↔ k ∉ m.map Prod.fst := by
  induction m with
  | nil => simp [mapGet]
  | cons p rest ih =>
    by_cases h : p.1 = k
    · rw [mapGet_cons_self h]
      simp [h]
    · rw [mapGet_cons_ne h]
      simp only [List.map_cons, List.mem_cons, not_or]
      rw [ih]
      constructor
      · exact fun hx => ⟨fun he => h he.symm, hx⟩
      · exact fun hx => hx.2

theorem mapGet_mem {m : List (String × List String)} {k : String} {v : List String}
    (h : mapGet m k = some v) : (k, v) ∈ m := by
  unfold mapGet at h
  rcases Option.map_eq_some.mp h with ⟨p, hp, rfl⟩
  have hk := List.find?_some hp
  simp only [decide_eq_true_eq] at hk
  have := List.mem_of_find?_eq_some hp
  rw [← hk]
  exact this

theorem mapGet_of_mem_nodup {m : List (String × List String)} {k : String} {v : List String}
    (hnd : (m.map Prod.fst).Nodup) (h : (k, v) ∈ m) : mapGet m k = some v := by
  induction m with
  | nil => cases h
  | cons p rest ih =>
    rcases List.mem_cons.mp h with rfl | hmem
    · simp [mapGet, List.find?]
    · have hk : p.1 ≠ k := by
        intro he
        have : k ∈ rest.map Prod.fst := ⟨(k, v), hmem, rfl⟩ |> List.mem_map.mpr
        rw [List.map_cons] at hnd
        exact (List.nodup_cons.mp hnd).1 (he ▸ this)
      have := ih (by rw [List.map_cons] at hnd; exact (List.nodup_cons.mp hnd).2) hmem
      simpa [mapGet, List.find?, hk] using this

theorem mapAdjust_keys (m : List (String × List String)) (k : String)
    (f : List String → List String) :
    (mapAdjust m k f).map Prod.fst = m.map Prod.fst := by
  induction m with
  | nil => rfl
  | cons p rest ih =>
    unfold mapAdjust
    split
    · simp
    · simpa using ih

theorem mapGet_mapAdjust_self (m : List (String × List String)) (k : String)
    (f : List String → List String) :
    mapGet (mapAdjust m k f) k = (mapGet m k).map f := by
  induction m with
  | nil => rfl
  | cons p rest ih =>
    by_cases hk : p.1 = k
    · rw [show mapAdjust (p :: rest) k f = (p.1, f p.2) :: rest from by simp [mapAdjust, hk]]
      rw [mapGet_cons_self hk, mapGet_cons_self (p := (p.1, f p.2)) hk]
      rfl
    · rw [show mapAdjust (p :: rest) k f = p :: mapAdjust rest k f from by simp [mapAdjust, hk]]
      rw [mapGet_cons_ne hk, mapGet_cons_ne hk, ih]

theorem mapGet_mapAdjust_other (m : List (String × List String)) (k k' : String)
    (f : List String → List String) (h : k' ≠ k) :
    mapGet (mapAdjust m k f) k' = mapGet m k' := by
  induction m with
  | nil => rfl
  | cons p rest ih =>
    by_cases hk : p.1 = k
    · rw [show mapAdjust (p :: rest) k f = (p.1, f p.2) :: rest from by simp [mapAdjust, hk]]
      by_cases hk' : p.1 = k'
      · exact absurd (hk' ▸ hk) h
      · rw [mapGet_cons_ne hk', mapGet_cons_ne (p := (p.1, f p.2)) hk']
    · rw [show mapAdjust (p :: rest) k f = p :: mapAdjust rest k f from by simp [mapAdjust, hk]]
      by_cases hk' : p.1 = k'
      · rw [mapGet_cons_self hk', mapGet_cons_self hk']
      · rw [mapGet_cons_ne hk', mapGet_cons_ne hk', ih]

theorem mapAdjust_mem {m : List (String × List String)} {k : String}
    {f : List String → List String} {p : String × List String}
    (h : p ∈ mapAdjust m k f) :
    ∃ q ∈ m, q.1 = p.1 ∧ (p.2 = q.2 ∨ p.2 = f q.2) := by
  induction m with
  | nil => cases h
  | cons q rest ih =>
    unfold mapAdjust at h
    split at h
    · rcases List.mem_cons.mp h with rfl | hmem
      · exact ⟨q, List.mem_cons_self _ _, rfl, Or.inr rfl⟩
      · exact ⟨p, List.mem_cons_of_mem _ hmem, rfl, Or.inl rfl⟩
    · rcases List.mem_cons.mp h with rfl | hmem
      · exact ⟨p, List.mem_cons_self _ _, rfl, Or.inl rfl⟩
      · rcases ih hmem with ⟨q', hq', he, hv⟩
        exact ⟨q', List.mem_cons_of_mem _ hq', he, hv⟩

/-! ## Correctness of the depth-first search in `canReachForward` -/

namespace DAG

/-- `addNode` does not change the derived dependents of any node: a fresh
node comes with an empty dependency set. -/
theorem getDependents_addNode (d : DAG) (id n : String) :
    (d.addNode id).getDependents n = d.getDependents n := by
  unfold addNode
  split
  · rfl
  · unfold getDependents mapSetNew
    simp [List.filter_append]

theorem stepF_addNode (d : DAG) (id : String) :
    stepF (d.addNode id) = stepF d := by
  funext u v
  unfold stepF
  rw [getDependents_addNode]

theorem dfsLoop_sound (d : DAG) (t : String) :
    ∀ visited stack, dfsLoop d t visited stack = true →
      ∃ u ∈ stack, Relation.TransGen (stepF d) u t := by
  intro visited stack
  induction visited, stack using dfsLoop.induct d t with
  | case1 visited =>
    intro h
    rw [dfsLoop] at h
    cases h
  | case2 visited current stackRest hmem ih =>
    intro h
    rw [dfsLoop] at h
    simp only [hmem, if_pos] at h
    rcases ih h with ⟨u, hu, ht⟩
    exact ⟨u, List.mem_cons_of_mem _ hu, ht⟩
  | case3 visited current stackRest hmem deps hdep =>
    intro _
    exact ⟨current, List.mem_cons_self _ _, Relation.TransGen.single hdep⟩
  | case4 visited current stackRest hmem visited' deps hnot ih =>
    intro h
    rw [dfsLoop] at h
    simp only [hmem, hnot, if_neg, if_false, ite_false, not_false_iff] at h
    rcases ih h with ⟨u, hu, ht⟩
    rcases List.mem_append.mp hu with hu | hu
    · have hdep : u ∈ getDependents d current :=
        List.mem_of_mem_filter (List.mem_reverse.mp hu)
      exact ⟨current, List.mem_cons_self _ _, Relation.TransGen.head hdep ht⟩
    · exact ⟨u, List.mem_cons_of_mem _ hu, ht⟩
theorem dfsLoop_complete (d : DAG) (t : String) :
    ∀ visited stack, dfsLoop d t visited stack = false →
      (∀ v ∈ visited, t ∉ getDependents d v) →
      (∀ v ∈ visited, ∀ w ∈ getDependents d v, w ∈ visited ∨ w ∈ stack) →
      t ∉ visited → t ∉ stack →
      ∀ u, (u ∈ visited ∨ u ∈ stack) → ¬ Relation.TransGen (stepF d) u t := by
  intro visited stack
  induction visited, stack using dfsLoop.induct d t with
  | case1 visited =>
    intro _ h1 h2 _ _ u hu
    have hu' : u ∈ visited := by
      rcases hu with hu | hu
      · exact hu
      · cases hu
    have key : ∀ z, Relation.TransGen (stepF d) z t → z ∈ visited → False := by
      intro z htrans
      induction htrans using Relation.TransGen.head_induction_on with
      | base hr => exact fun hz => h1 _ hz hr
      | ih hr _ ihp =>
        intro hz
        rcases h2 _ hz _ hr with hc | hc
        · exact ihp hc
        · cases hc
    exact fun htrans => key u htrans hu'
  | case2 visited current stackRest hcur ih =>
    intro h h1 h2 h3 h4 u hu
    rw [dfsLoop] at h
    simp only [hcur, if_pos] at h
    refine ih h h1 ?_ h3 (fun hmem => h4 (List.mem_cons_of_mem _ hmem)) u ?_
    · intro v hv w hw
      rcases h2 v hv w hw with hc | hc
      · exact Or.inl hc
      · rcases List.mem_cons.mp hc with rfl | hc
        · exact Or.inl hcur
        · exact Or.inr hc
    · rcases hu with hu | hu
      · exact Or.inl hu
      · rcases List.mem_cons.mp hu with rfl | hu
        · exact Or.inl hcur
        · exact Or.inr hu
  | case3 visited current stackRest hmem deps hdep =>
    intro h
    rw [dfsLoop] at h
    simp [hmem, hdep] at h
  | case4 visited current stackRest hcur visited' deps hnotdep ih =>
    intro h h1 h2 h3 h4 u hu
    rw [dfsLoop] at h
    simp only [hcur, hnotdep, if_neg, ite_false, not_false_iff] at h
    have htc : t ≠ current := fun he => h4 (he ▸ List.mem_cons_self _ _)
    refine ih h ?_ ?_ ?_ ?_ u ?_
    · intro v hv
      rcases List.mem_append.mp hv with hv | hv
      · exact h1 v hv
      · rcases List.mem_singleton.mp hv with rfl
        exact hnotdep
    · intro v hv w hw
      rcases List.mem_append.mp hv with hv | hv
      · rcases h2 v hv w hw with hc | hc
        · exact Or.inl (List.mem_append.mpr (Or.inl hc))
        · rcases List.mem_cons.mp hc with rfl | hc
          · exact Or.inl (List.mem_append.mpr (Or.inr (by simp)))
          · exact Or.inr (List.mem_append.mpr (Or.inr hc))
      · rcases List.mem_singleton.mp hv with rfl
        by_cases hwv : w ∈ visited'
        · exact Or.inl hwv
        · refine Or.inr (List.mem_append.mpr (Or.inl ?_))
          rw [List.mem_reverse, List.mem_filter]
          exact ⟨hw, by simpa using hwv⟩
    · intro hmem
      rcases List.mem_append.mp hmem with hmem | hmem
      · exact h3 hmem
      · exact htc (List.mem_singleton.mp hmem)
    · intro hmem
      rcases List.mem_append.mp hmem with hmem | hmem
      · exact hnotdep (List.mem_of_mem_filter (List.mem_reverse.mp hmem))
      · exact h4 (List.mem_cons_of_mem _ hmem)
    · rcases hu with hu | hu
      · exact Or.inl (List.mem_append.mpr (Or.inl hu))
      · rcases List.mem_cons.mp hu with rfl | hu
        · exact Or.inl (List.mem_append.mpr (Or.inr (by simp)))
        · exact Or.inr (List.mem_append.mpr (Or.inr hu))

theorem canReachForward_iff (d : DAG) (s t : String) :
    canReachForward d s t = true ↔ Relation.ReflTransGen (stepF d) s t := by
  unfold canReachForward
  by_cases hst : s = t
  · subst hst
    simpa using Relation.ReflTransGen.refl
  · simp only [hst, if_false, ite_false]
    constructor
    · intro h
      rcases dfsLoop_sound d t [] [s] h with ⟨u, hu, ht⟩
      rcases List.mem_singleton.mp hu with rfl
      exact ht.to_reflTransGen
    · intro hreach
      by_contra hfalse
      have hne : dfsLoop d t [] [s] = false := by
        simpa using hfalse
      have hcomp := dfsLoop_complete d t [] [s] hne (by simp) (by simp) (by simp)
        (by simpa using fun he => hst he.symm) s (Or.inr (by simp))
      rcases Relation.reflTransGen_iff_eq_or_transGen.mp hreach with he | ht2
      · exact hst he.symm
      · exact hcomp ht2
end DAG

/-! ## The state invariant of reachable graphs, and its preservation -/

namespace DAG

/-- Membership in the derived dependents, in terms of the stored entries. -/
theorem mem_getDependents_iff (d : DAG) (u v : String) :
    v ∈ d.getDependents u ↔ ∃ dl, (v, dl) ∈ d.edges ∧ u ∈ dl := by
  unfold getDependents
  constructor
  · intro h
    rcases List.mem_map.mp h with ⟨p, hp, rfl⟩
    rcases List.mem_filter.mp hp with ⟨hpe, hu⟩
    exact ⟨p.2, hpe, by simpa using hu⟩
  · rintro ⟨dl, hmem, hu⟩
    exact List.mem_map.mpr ⟨(v, dl), List.mem_filter.mpr ⟨hmem, by simpa using hu⟩, rfl⟩

/-- With duplicate-free keys, an edge `(u, v)` is present exactly when `u` is
among the stored dependencies of `v`. -/
theorem stepF_iff_mem_getDependencies {d : DAG} (hnd : (d.edges.map Prod.fst).Nodup)
    (u v : String) : stepF d u v ↔ u ∈ d.getDependencies v := by
  unfold stepF getDependencies
  rw [mem_getDependents_iff]
  constructor
  · rintro ⟨dl, hmem, hu⟩
    rw [mapGet_of_mem_nodup hnd hmem]
    exact hu
  · intro hu
    rcases hget : mapGet d.edges v with _ | dl
    · rw [hget] at hu
      cases hu
    · rw [hget] at hu
      exact ⟨dl, mapGet_mem hget, hu⟩

theorem addNode_nodes (d : DAG) (id : String) :
    (d.addNode id).nodes = if id ∈ d.nodes then d.nodes else d.nodes ++ [id] := by
  unfold addNode
  split <;> simp_all

theorem addNode_edges (d : DAG) (id : String) :
    (d.addNode id).edges = if id ∈ d.nodes then d.edges else d.edges ++ [(id, [])] := by
  unfold addNode mapSetNew
  split <;> simp_all

theorem mem_addNode_nodes (d : DAG) (id x : String) :
    x ∈ (d.addNode id).nodes ↔ x ∈ d.nodes ∨ x = id := by
  rw [addNode_nodes]
  split
  · constructor
    · exact Or.inl
    · rintro (h | rfl) <;> [exact h; assumption]
  · simp

/-- The state invariant: the adjacency map is keyed exactly by the node list,
node and dependency sets are duplicate-free, dependencies point into the node
set, and the derived dependents relation has no cycle. -/
structure Invariants (d : DAG) : Prop where
  keys_eq : d.edges.map Prod.fst = d.nodes
  nodup_nodes : d.nodes.Nodup
  deps_nodup : ∀ p ∈ d.edges, p.2.Nodup
  deps_mem : ∀ p ∈ d.edges, ∀ x ∈ p.2, x ∈ d.nodes
  acyclic : ∀ n, ¬ Relation.TransGen (stepF d) n n

theorem invariants_empty : Invariants dagEmpty := by
  refine ⟨rfl, List.nodup_nil, ?_, ?_, ?_⟩
  · intro p hp
    cases hp
  · intro p hp
    cases hp
  · intro n h
    have : ∀ a b, ¬ stepF dagEmpty a b := by
      intro a b hs
      rcases (mem_getDependents_iff _ _ _).mp hs with ⟨dl, hmem, _⟩
      cases hmem
    cases h with
    | single hs => exact this _ _ hs
    | tail _ hs => exact this _ _ hs

theorem acyclic_mono {d d' : DAG} (hsub : ∀ u v, stepF d' u v → stepF d u v)
    (hac : ∀ n, ¬ Relation.TransGen (stepF d) n n) :
    ∀ n, ¬ Relation.TransGen (stepF d') n n := by
  intro n h
  exact hac n (Relation.TransGen.mono hsub h)

theorem invariants_addNode {d : DAG} (h : Invariants d) (id : String) :
    Invariants (d.addNode id) := by
  by_cases hmem : id ∈ d.nodes
  · rw [show d.addNode id = d from by unfold addNode; simp [hmem]]
    exact h
  · refine ⟨?_, ?_, ?_, ?_, ?_⟩
    · rw [addNode_edges, addNode_nodes]
      simp [hmem, h.keys_eq]
    · rw [addNode_nodes]
      simpa [hmem, List.nodup_append] using h.nodup_nodes
    · intro p hp
      rw [addNode_edges] at hp
      simp only [hmem, if_neg, ite_false] at hp
      rcases List.mem_append.mp hp with hp | hp
      · exact h.deps_nodup p hp
      · rcases List.mem_singleton.mp hp with rfl
        exact List.nodup_nil
    · intro p hp x hx
      rw [addNode_edges] at hp
      rw [mem_addNode_nodes]
      simp only [hmem, if_neg, ite_false] at hp
      rcases List.mem_append.mp hp with hp | hp
      · exact Or.inl (h.deps_mem p hp x hx)
      · rcases List.mem_singleton.mp hp with rfl
        cases hx
    · rw [show stepF (d.addNode id) = stepF d from stepF_addNode d id]
      exact h.acyclic

theorem invariants_removeNode {d : DAG} (h : Invariants d) (id : String) :
    Invariants (d.removeNode id) := by
  by_cases hmem : id ∈ d.nodes
  · have hd' : d.removeNode id =
        { nodes := setDelete d.nodes id
          edges := (d.edges.filter (fun p => p.1 ≠ id)).map
            (fun p => (p.1, setDelete p.2 id)) } := by
      unfold removeNode
      simp [hmem]
    rw [hd']
    have hkeys : ((d.edges.filter (fun p => p.1 ≠ id)).map
        (fun p => (p.1, setDelete p.2 id))).map Prod.fst = setDelete d.nodes id := by
      rw [List.map_map, ← h.keys_eq]
      show (d.edges.filter (fun p => p.1 ≠ id)).map Prod.fst =
        setDelete (d.edges.map Prod.fst) id
      unfold setDelete
      induction d.edges with
      | nil => rfl
      | cons p rest ih =>
        by_cases hp : p.1 = id
        · simpa [List.filter_cons, hp] using ih
        · simpa [List.filter_cons, hp] using ih
    refine ⟨hkeys, setDelete_nodup h.nodup_nodes id, ?_, ?_, ?_⟩
    · intro p hp
      rcases List.mem_map.mp hp with ⟨q, hq, rfl⟩
      exact setDelete_nodup (h.deps_nodup q (List.mem_of_mem_filter hq)) id
    · intro p hp x hx
      rcases List.mem_map.mp hp with ⟨q, hq, rfl⟩
      simp only at hx
      rcases (setDelete_mem _ _ _).mp hx with ⟨hxq, hxid⟩
      exact (setDelete_mem _ _ _).mpr
        ⟨h.deps_mem q (List.mem_of_mem_filter hq) x hxq, hxid⟩
    · refine acyclic_mono ?_ h.acyclic
      intro u v hs
      rcases (mem_getDependents_iff _ _ _).mp hs with ⟨dl, hmem', hu⟩
      simp only at hmem'
      rcases List.mem_map.mp hmem' with ⟨q, hq, he⟩
      have hv : q.1 = v := congrArg Prod.fst he
      have hdl : dl = setDelete q.2 id := (congrArg Prod.snd he).symm
      refine (mem_getDependents_iff _ _ _).mpr ⟨q.2, ?_, ?_⟩
      · rw [← hv]
        exact List.mem_of_mem_filter hq
      · exact ((setDelete_mem _ _ _).mp (hdl ▸ hu)).1
  · rw [show d.removeNode id = d from by unfold removeNode; simp [hmem]]
    exact h

theorem invariants_removeEdge {d : DAG} (h : Invariants d) (f t : String) :
    Invariants (d.removeEdge f t) := by
  refine ⟨?_, h.nodup_nodes, ?_, ?_, ?_⟩
  · show (mapAdjust d.edges t _).map Prod.fst = d.nodes
    rw [mapAdjust_keys]
    exact h.keys_eq
  · intro p hp
    rcases mapAdjust_mem hp with ⟨q, hq, _, hv | hv⟩
    · exact hv ▸ h.deps_nodup q hq
    · exact hv ▸ setDelete_nodup (h.deps_nodup q hq) f
  · intro p hp x hx
    rcases mapAdjust_mem hp with ⟨q, hq, _, hv | hv⟩
    · exact h.deps_mem q hq x (hv ▸ hx)
    · exact h.deps_mem q hq x ((setDelete_mem _ _ _).mp (hv ▸ hx)).1
  · refine acyclic_mono ?_ h.acyclic
    intro u v hs
    rcases (mem_getDependents_iff _ _ _).mp hs with ⟨dl, hmem', hu⟩
    rcases mapAdjust_mem hmem' with ⟨q, hq, he, hv⟩
    simp only at he hv
    have hq' : (v, q.2) ∈ d.edges := by
      have hqe : q = (v, q.2) := Prod.ext he rfl
      exact hqe ▸ hq
    refine (mem_getDependents_iff _ _ _).mpr ⟨q.2, hq', ?_⟩
    rcases hv with hv | hv
    · exact hv ▸ hu
    · exact ((setDelete_mem _ _ _).mp (hv ▸ hu)).1

theorem addNode_of_mem {d : DAG} {id : String} (hmem : id ∈ d.nodes) :
    d.addNode id = d := by
  unfold addNode
  simp [hmem]

theorem addEdge_eq_selfLoop {d : DAG} {f t : String} (h : f = t) :
    d.addEdge f t = (.selfLoop, d) := by
  simp [addEdge, h]

theorem addEdge_eq_duplicate {d : DAG} {f t : String} (hft : f ≠ t)
    (hdup : f ∈ ((d.addNode f).addNode t).getDependencies t) :
    d.addEdge f t = (.duplicate, (d.addNode f).addNode t) := by
  unfold addEdge
  rw [if_neg hft, if_pos]
  exact hdup

theorem addEdge_eq_cycle {d : DAG} {f t : String} (hft : f ≠ t)
    (hdup : f ∉ ((d.addNode f).addNode t).getDependencies t)
    (hcyc : wouldCreateCycle ((d.addNode f).addNode t) f t = true) :
    d.addEdge f t = (.cycle, (d.addNode f).addNode t) := by
  have hdup' : f ∉ (mapGet ((d.addNode f).addNode t).edges t).getD [] := hdup
  unfold addEdge
  simp only [if_neg hft]
  rw [if_neg hdup', if_pos hcyc]

theorem addEdge_eq_added {d : DAG} {f t : String} (hft : f ≠ t)
    (hdup : f ∉ ((d.addNode f).addNode t).getDependencies t)
    (hcyc : wouldCreateCycle ((d.addNode f).addNode t) f t = false) :
    d.addEdge f t = (.added,
      { (d.addNode f).addNode t with
        edges := mapAdjust ((d.addNode f).addNode t).edges t
          (fun deps => setAdd deps f) }) := by
  have hdup' : f ∉ (mapGet ((d.addNode f).addNode t).edges t).getD [] := hdup
  unfold addEdge
  simp only [if_neg hft]
  rw [if_neg hdup', if_neg (by simp [hcyc])]

/-- Splitting a reflexive-transitive chain over a relation extended with the
single pair `(f, t)`: either the chain avoids the new pair, or it reaches
`f` purely in the old relation and continues from `t`. -/
theorem reflTransGen_insert_decompose {α : Type} {r : α → α → Prop} {f t : α} {a b : α}
    (h : Relation.ReflTransGen (fun u v => r u v ∨ (u = f ∧ v = t)) a b) :
    Relation.ReflTransGen r a b ∨
      (Relation.ReflTransGen r a f ∧ Relation.ReflTransGen r t b) := by
  induction h with
  | refl => exact Or.inl Relation.ReflTransGen.refl
  | tail _ hbc ih =>
    rcases hbc with hr | ⟨rfl, rfl⟩
    · rcases ih with ih | ⟨ih1, ih2⟩
      · exact Or.inl (ih.tail hr)
      · exact Or.inr ⟨ih1, ih2.tail hr⟩
    · rcases ih with ih | ⟨ih1, _⟩
      · exact Or.inr ⟨ih, Relation.ReflTransGen.refl⟩
      · exact Or.inr ⟨ih1, Relation.ReflTransGen.refl⟩

/-- Adding the edge `(f, t)` to an acyclic relation keeps it acyclic as long
as `f` was not reachable from `t`. -/
theorem acyclic_insert {r : String → String → Prop} {f t : String}
    (hac : ∀ n, ¬ Relation.TransGen r n n)
    (hnotreach : ¬ Relation.ReflTransGen r t f) :
    ∀ n, ¬ Relation.TransGen (fun u v => r u v ∨ (u = f ∧ v = t)) n n := by
  intro n h
  obtain ⟨c, hstep, hrest⟩ :
      ∃ c, (r n c ∨ (n = f ∧ c = t)) ∧
        Relation.ReflTransGen (fun u v => r u v ∨ (u = f ∧ v = t)) c n := by
    rcases Relation.TransGen.head'_iff.mp h with ⟨c, hs, ht⟩
    exact ⟨c, hs, ht⟩
  rcases hstep with hr | ⟨rfl, rfl⟩
  · rcases reflTransGen_insert_decompose hrest with hp | ⟨h1, h2⟩
    · exact hac n (Relation.TransGen.head' hr hp)
    · exact hnotreach ((h2.tail hr).trans h1)
  · rcases reflTransGen_insert_decompose hrest with hp | ⟨h1, _⟩
    · exact hnotreach hp
    · exact hnotreach h1

theorem mapGet_isSome_of_mem_keys {m : List (String × List String)} {k : String}
    (h : k ∈ m.map Prod.fst) : ∃ dl, mapGet m k = some dl := by
  rcases hget : mapGet m k with _ | dl
  · exact absurd ((mapGet_none_iff m k).mp hget) (by simpa using h)
  · exact ⟨dl, rfl⟩

/-- The edge relation after the successful insertion of `(f, t)` is the old
relation extended with exactly that pair. -/
theorem stepF_insert {d₂ : DAG} (h₂ : Invariants d₂) {f t : String}
    (ht : t ∈ d₂.nodes) (u v : String) :
    stepF { d₂ with edges := mapAdjust d₂.edges t (fun deps => setAdd deps f) } u v ↔
      (stepF d₂ u v ∨ (u = f ∧ v = t)) := by
  have hnd : (d₂.edges.map Prod.fst).Nodup := by
    rw [h₂.keys_eq]
    exact h₂.nodup_nodes
  have hnd3 : ((mapAdjust d₂.edges t (fun deps => setAdd deps f)).map Prod.fst).Nodup := by
    rw [mapAdjust_keys]
    exact hnd
  rw [stepF_iff_mem_getDependencies (d := { d₂ with
    edges := mapAdjust d₂.edges t (fun deps => setAdd deps f) }) hnd3,
    stepF_iff_mem_getDependencies hnd]
  show u ∈ (mapGet (mapAdjust d₂.edges t _) v).getD [] ↔ _
  by_cases hv : v = t
  · subst hv
    rw [mapGet_mapAdjust_self]
    rcases mapGet_isSome_of_mem_keys (h₂.keys_eq ▸ ht) with ⟨dl, hget⟩
    rw [hget]
    show u ∈ setAdd dl f ↔ _
    rw [setAdd_mem]
    unfold getDependencies
    rw [hget]
    simp
  · rw [mapGet_mapAdjust_other _ _ _ _ hv]
    unfold getDependencies
    simp [hv]

theorem invariants_addEdge {d : DAG} (h : Invariants d) (f t : String) :
    Invariants (d.addEdge f t).2 := by
  by_cases hft : f = t
  · rw [addEdge_eq_selfLoop hft]
    exact h
  · have h₂ : Invariants ((d.addNode f).addNode t) :=
      invariants_addNode (invariants_addNode h f) t
    by_cases hdup : f ∈ ((d.addNode f).addNode t).getDependencies t
    · rw [addEdge_eq_duplicate hft hdup]
      exact h₂
    · by_cases hcyc : wouldCreateCycle ((d.addNode f).addNode t) f t = true
      · rw [addEdge_eq_cycle hft hdup hcyc]
        exact h₂
      · rw [addEdge_eq_added hft hdup (by simpa using hcyc)]
        set d₂ := (d.addNode f).addNode t with hd₂
        have ht : t ∈ d₂.nodes := by
          rw [hd₂, mem_addNode_nodes]
          exact Or.inr rfl
        have hf : f ∈ d₂.nodes := by
          rw [hd₂, mem_addNode_nodes]
          exact Or.inl ((mem_addNode_nodes d f f).mpr (Or.inr rfl))
        refine ⟨?_, h₂.nodup_nodes, ?_, ?_, ?_⟩
        · show (mapAdjust d₂.edges t _).map Prod.fst = d₂.nodes
          rw [mapAdjust_keys]
          exact h₂.keys_eq
        · intro p hp
          rcases mapAdjust_mem hp with ⟨q, hq, _, hv⟩
          rcases hv with hv | hv
          · exact hv ▸ h₂.deps_nodup q hq
          · exact hv ▸ setAdd_nodup (h₂.deps_nodup q hq) f
        · intro p hp x hx
          rcases mapAdjust_mem hp with ⟨q, hq, _, hv⟩
          rcases hv with hv | hv
          · exact h₂.deps_mem q hq x (hv ▸ hx)
          · rcases (setAdd_mem _ _ _).mp (hv ▸ hx) with hxq | rfl
            · exact h₂.deps_mem q hq x hxq
            · exact hf
        · have hnc : ¬ Relation.ReflTransGen (stepF d₂) t f := by
            intro hreach
            have : canReachForward d₂ t f = true := (canReachForward_iff d₂ t f).mpr hreach
            exact absurd (show wouldCreateCycle d₂ f t = true from this) hcyc
          intro n hn
          refine acyclic_insert h₂.acyclic hnc n (Relation.TransGen.mono ?_ hn)
          intro a b hab
          exact (stepF_insert h₂ ht a b).mp hab

theorem invariants_applyOp {d : DAG} (h : Invariants d) (op : Op) :
    Invariants (applyOp d op) := by
  cases op with
  | addNode id => exact invariants_addNode h id
  | removeNode id => exact invariants_removeNode h id
  | addEdge f t => exact invariants_addEdge h f t
  | removeEdge f t => exact invariants_removeEdge h f t

theorem invariants_applyOps {d : DAG} (h : Invariants d) (ops : List Op) :
    Invariants (applyOps d ops) := by
  induction ops generalizing d with
  | nil => exact h
  | cons op rest ih => exact ih (invariants_applyOp h op)

/-! ## Facts about the in-degree map of `topologicalSort` -/

theorem degGet_cons_self {p : String × Int} {rest : List (String × Int)}
    {k : String} (h : p.1 = k) : degGet (p :: rest) k = some p.2 := by
  simp [degGet, List.find?, h]

theorem degGet_cons_ne {p : String × Int} {rest : List (String × Int)}
    {k : String} (h : p.1 ≠ k) : degGet (p :: rest) k = degGet rest k := by
  simp [degGet, List.find?, h]

theorem degGet_none_iff (m : List (String × Int)) (k : String) :
    degGet m k = none ↔ k ∉ m.map Prod.fst := by
  induction m with
  | nil => simp [degGet]
  | cons p rest ih =>
    by_cases h : p.1 = k
    · rw [degGet_cons_self h]
      simp [h]
    · rw [degGet_cons_ne h]
      simp only [List.map_cons, List.mem_cons, not_or]
      rw [ih]
      constructor
      · exact fun hx => ⟨fun he => h he.symm, hx⟩
      · exact fun hx => hx.2

theorem degGet_degSet_self (m : List (String × Int)) (k : String) (v : Int) :
    degGet (degSet m k v) k = some v := by
  induction m with
  | nil => simp [degSet, degGet, List.find?]
  | cons p rest ih =>
    by_cases h : p.1 = k
    · rw [show degSet (p :: rest) k v = (k, v) :: rest from by simp [degSet, h]]
      exact degGet_cons_self rfl
    · rw [show degSet (p :: rest) k v = p :: degSet rest k v from by simp [degSet, h]]
      rw [degGet_cons_ne h]
      exact ih

theorem degGet_degSet_other (m : List (String × Int)) (k k' : String) (v : Int)
    (h : k' ≠ k) : degGet (degSet m k v) k' = degGet m k' := by
  induction m with
  | nil => simp [degSet, degGet, List.find?, Ne.symm h]
  | cons p rest ih =>
    by_cases hk : p.1 = k
    · have hpk' : p.1 ≠ k' := by
        rw [hk]
        exact Ne.symm h
      rw [show degSet (p :: rest) k v = (k, v) :: rest from by simp [degSet, hk]]
      rw [degGet_cons_ne (show ((k, v) : String × Int).1 ≠ k' from Ne.symm h)]
      rw [degGet_cons_ne hpk']
    · rw [show degSet (p :: rest) k v = p :: degSet rest k v from by simp [degSet, hk]]
      by_cases hk' : p.1 = k'
      · rw [degGet_cons_self hk', degGet_cons_self hk']
      · rw [degGet_cons_ne hk', degGet_cons_ne hk', ih]

theorem degSet_keys_of_mem {m : List (String × Int)} {k : String}
    (h : k ∈ m.map Prod.fst) (v : Int) :
    (degSet m k v).map Prod.fst = m.map Prod.fst := by
  induction m with
  | nil => cases h
  | cons p rest ih =>
    by_cases hk : p.1 = k
    · rw [show degSet (p :: rest) k v = (k, v) :: rest from by simp [degSet, hk]]
      simp [hk]
    · rw [show degSet (p :: rest) k v = p :: degSet rest k v from by simp [degSet, hk]]
      have : k ∈ rest.map Prod.fst := by
        rw [List.map_cons] at h
        rcases List.mem_cons.mp h with he | hm
        · exact absurd he.symm hk
        · exact hm
      simp [ih this]

theorem degSet_append_of_not_mem {m : List (String × Int)} {k : String}
    (h : k ∉ m.map Prod.fst) (v : Int) :
    degSet m k v = m ++ [(k, v)] := by
  induction m with
  | nil => rfl
  | cons p rest ih =>
    have hk : p.1 ≠ k := by
      intro he
      exact h (by simp [he])
    rw [show degSet (p :: rest) k v = p :: degSet rest k v from by simp [degSet, hk]]
    rw [ih (fun hm => h (by simp [hm]))]
    simp

theorem degGet_some_mem_keys {m : List (String × Int)} {k : String} {w : Int}
    (h : degGet m k = some w) : k ∈ m.map Prod.fst := by
  by_contra hmem
  rw [(degGet_none_iff m k).mpr hmem] at h
  cases h

/-- Two degree maps with the same duplicate-free key list and the same
lookups are equal as lists. -/
theorem degMap_ext {m₁ m₂ : List (String × Int)}
    (hk : m₁.map Prod.fst = m₂.map Prod.fst) (hnd : (m₁.map Prod.fst).Nodup)
    (hget : ∀ k, degGet m₁ k = degGet m₂ k) : m₁ = m₂ := by
  induction m₁ generalizing m₂ with
  | nil => exact (List.map_eq_nil_iff.mp hk.symm).symm
  | cons p r ih =>
    rcases m₂ with _ | ⟨q, r₂⟩
    · cases hk
    · simp only [List.map_cons, List.cons.injEq] at hk
      have hpq : p = q := by
        have h1 := hget p.1
        rw [degGet_cons_self rfl, degGet_cons_self hk.1.symm] at h1
        exact Prod.ext hk.1 (Option.some.injEq _ _ ▸ h1)
      subst hpq
      have hndr : (r.map Prod.fst).Nodup := (List.nodup_cons.mp (by simpa using hnd)).2
      have hout : p.1 ∉ r.map Prod.fst := (List.nodup_cons.mp (by simpa using hnd)).1
      have hout₂ : p.1 ∉ r₂.map Prod.fst := hk.2 ▸ hout
      refine congrArg (p :: ·) (ih hk.2 hndr ?_)
      intro k
      by_cases hkp : k = p.1
      · subst hkp
        rw [(degGet_none_iff _ _).mpr hout, (degGet_none_iff _ _).mpr hout₂]
      · have h1 := hget k
        rwa [degGet_cons_ne (fun he => hkp he.symm),
          degGet_cons_ne (fun he => hkp he.symm)] at h1

theorem foldInit_eq (l : List String) (acc : List (String × Int))
    (hfresh : ∀ x ∈ l, x ∉ acc.map Prod.fst) (hnd : l.Nodup) :
    l.foldl (fun m n => degSet m n 0) acc = acc ++ l.map (fun n => (n, (0 : Int))) := by
  induction l generalizing acc with
  | nil => simp
  | cons n l' ih =>
    have hstep : degSet acc n 0 = acc ++ [(n, 0)] :=
      degSet_append_of_not_mem (hfresh n (List.mem_cons_self _ _)) 0
    have hfresh' : ∀ x ∈ l', x ∉ (acc ++ [(n, 0)]).map Prod.fst := by
      intro x hx
      simp only [List.map_append, List.mem_append, List.map_cons, List.map_nil,
        List.mem_singleton, not_or]
      exact ⟨hfresh x (List.mem_cons_of_mem _ hx),
        fun he => (List.nodup_cons.mp hnd).1 (he ▸ hx)⟩
    calc (n :: l').foldl (fun m n => degSet m n 0) acc
        = l'.foldl (fun m n => degSet m n 0) (acc ++ [(n, 0)]) := by
          rw [List.foldl_cons, hstep]
      _ = acc ++ [(n, 0)] ++ l'.map (fun n => (n, (0 : Int))) :=
          ih _ hfresh' (List.nodup_cons.mp hnd).2
      _ = acc ++ (n :: l').map (fun n => (n, (0 : Int))) := by simp

theorem foldInc_spec (dk : List String) (m : List (String × Int)) (k : String) (w : Int)
    (hget : degGet m k = some w) :
    (dk.foldl (fun m' _ => degSet m' k (((degGet m' k).getD 0) + 1)) m).map Prod.fst =
        m.map Prod.fst ∧
    degGet (dk.foldl (fun m' _ => degSet m' k (((degGet m' k).getD 0) + 1)) m) k =
        some (w + dk.length) ∧
    ∀ k', k' ≠ k →
      degGet (dk.foldl (fun m' _ => degSet m' k (((degGet m' k).getD 0) + 1)) m) k' =
        degGet m k' := by
  induction dk generalizing m w with
  | nil =>
    refine ⟨rfl, ?_, fun _ _ => rfl⟩
    simpa using hget
  | cons x dk' ih =>
    have hstep : degSet m k (((degGet m k).getD 0) + 1) = degSet m k (w + 1) := by
      rw [hget]
      rfl
    have hkeys : (degSet m k (w + 1)).map Prod.fst = m.map Prod.fst :=
      degSet_keys_of_mem (degGet_some_mem_keys hget) _
    have hget' : degGet (degSet m k (w + 1)) k = some (w + 1) := degGet_degSet_self m k _
    rcases ih (degSet m k (w + 1)) (w + 1) hget' with ⟨ih1, ih2, ih3⟩
    refine ⟨?_, ?_, ?_⟩
    · rw [List.foldl_cons, hstep, ih1, hkeys]
    · rw [List.foldl_cons, hstep, ih2]
      congr 1
      simp only [List.length_cons]
      push_cast
      ring
    · intro k' hk'
      rw [List.foldl_cons, hstep, ih3 k' hk', degGet_degSet_other m k k' _ hk']

theorem foldOuter_spec (es : List (String × List String)) (m : List (String × Int))
    (hkeys : ∀ p ∈ es, p.1 ∈ m.map Prod.fst) (hnd : (es.map Prod.fst).Nodup) :
    (es.foldl (fun m p =>
        p.2.foldl (fun m' _ => degSet m' p.1 (((degGet m' p.1).getD 0) + 1)) m) m).map
          Prod.fst = m.map Prod.fst ∧
    ∀ k, degGet (es.foldl (fun m p =>
        p.2.foldl (fun m' _ => degSet m' p.1 (((degGet m' p.1).getD 0) + 1)) m) m) k =
      (match mapGet es k with
        | some dk => (degGet m k).map (fun w => w + dk.length)
        | none => degGet m k) := by
  induction es generalizing m with
  | nil => exact ⟨rfl, fun k => by simp [mapGet]⟩
  | cons e es' ih =>
    obtain ⟨w, hw⟩ : ∃ w, degGet m e.1 = some w := by
      rcases hget : degGet m e.1 with _ | w
      · exact absurd ((degGet_none_iff _ _).mp hget) (by
          simpa using hkeys e (List.mem_cons_self _ _))
      · exact ⟨w, rfl⟩
    rcases foldInc_spec e.2 m e.1 w hw with ⟨h1, h2, h3⟩
    set m₁ := e.2.foldl (fun m' _ => degSet m' e.1 (((degGet m' e.1).getD 0) + 1)) m with hm₁
    have hkeys' : ∀ p ∈ es', p.1 ∈ m₁.map Prod.fst := by
      intro p hp
      rw [h1]
      exact hkeys p (List.mem_cons_of_mem _ hp)
    have hnd' : (es'.map Prod.fst).Nodup := (List.nodup_cons.mp (by simpa using hnd)).2
    have hout : e.1 ∉ es'.map Prod.fst := (List.nodup_cons.mp (by simpa using hnd)).1
    rcases ih m₁ hkeys' hnd' with ⟨ih1, ih2⟩
    constructor
    · rw [List.foldl_cons, ← hm₁, ih1, h1]
    · intro k
      rw [List.foldl_cons, ← hm₁, ih2 k]
      by_cases hk : k = e.1
      · have hself : mapGet (e :: es') k = some e.2 := mapGet_cons_self hk.symm
        have hnone : mapGet es' k = none := (mapGet_none_iff _ _).mpr (by
          rw [hk]
          exact hout)
        rw [hself, hnone, hk, h2, hw]
        rfl
      · rw [show mapGet (e :: es') k = mapGet es' k from
          mapGet_cons_ne (fun he => hk he.symm)]
        rcases hes' : mapGet es' k with _ | dk
        · exact h3 k hk
        · rw [h3 k hk]

theorem degGet_map_graph (l : List String) (g : String → Int) (k : String) :
    degGet (l.map (fun n => (n, g n))) k = if k ∈ l then some (g k) else none := by
  induction l with
  | nil => simp [degGet]
  | cons n l' ih =>
    by_cases hk : n = k
    · subst hk
      rw [List.map_cons, degGet_cons_self rfl]
      simp
    · rw [List.map_cons, degGet_cons_ne hk, ih]
      simp [Ne.symm hk, hk]

/-- Under the invariant, the in-degree initialization computes exactly the
size of each node's dependency set, in node order. -/
theorem buildInDegree_eq {d : DAG} (h : Invariants d) :
    buildInDegree d =
      d.nodes.map (fun n => (n, ((d.getDependencies n).length : Int))) := by
  unfold buildInDegree
  have hinit : d.nodes.foldl (fun m n => degSet m n 0) [] =
      d.nodes.map (fun n => (n, (0 : Int))) := by
    rw [foldInit_eq d.nodes [] (by simp) h.nodup_nodes]
    simp
  rw [hinit]
  have hkeys0 : (d.nodes.map (fun n => (n, (0 : Int)))).map Prod.fst = d.nodes := by
    rw [List.map_map]
    exact List.map_id d.nodes
  rcases foldOuter_spec d.edges (d.nodes.map (fun n => (n, (0 : Int))))
      (fun p hp => by
        rw [hkeys0]
        rw [← h.keys_eq]
        exact List.mem_map_of_mem Prod.fst hp)
      (h.keys_eq ▸ h.nodup_nodes) with ⟨h1, h2⟩
  apply degMap_ext
  · rw [h1, hkeys0, List.map_map]
    exact (List.map_id d.nodes).symm
  · rw [h1, hkeys0]
    exact h.nodup_nodes
  · intro k
    rw [h2 k, degGet_map_graph]
    by_cases hk : k ∈ d.nodes
    · rcases mapGet_isSome_of_mem_keys (h.keys_eq.symm ▸ hk) with ⟨dk, hdk⟩
      rw [hdk, degGet_map_graph]
      simp only [hk, if_pos]
      unfold getDependencies
      rw [hdk]
      simp
    · rw [show mapGet d.edges k = none from (mapGet_none_iff _ _).mpr
        (fun hm => hk (h.keys_eq ▸ hm))]
      rw [degGet_map_graph]
      simp [hk]

/-- Under the invariant, the seed queue holds exactly the nodes with no
dependencies, in node order. -/
theorem seedQueue_eq {d : DAG} (h : Invariants d) :
    ((buildInDegree d).filter (fun p => p.2 = 0)).map Prod.fst =
      d.nodes.filter (fun n => (d.getDependencies n).isEmpty) := by
  rw [buildInDegree_eq h]
  induction d.nodes with
  | nil => rfl
  | cons n l ih =>
    simp only [List.map_cons, List.filter_cons]
    by_cases hn : (d.getDependencies n).length = 0
    · have he : (d.getDependencies n).isEmpty = true := by
        simpa [List.isEmpty_iff] using List.length_eq_zero.mp hn
      simp only [he, if_pos, show (((d.getDependencies n).length : Int) = 0) = True from by
        simp [hn], decide_True]
      simpa using ih
    · have he : (d.getDependencies n).isEmpty = false := by
        rcases hd : d.getDependencies n with _ | _
        · exact absurd (by simp [hd]) hn
        · simp
      have hz : ¬ (((d.getDependencies n).length : Int) = 0) := by
        simpa using hn
      simp only [he, hz, decide_False, if_neg, Bool.false_eq_true, not_false_iff]
      simpa using ih

/-! ## The Kahn loop under the invariant -/

theorem foldDec_char (D : List String) :
    ∀ (m : List (String × Int)) (q : List String), D.Nodup →
      (∀ k ∈ D, k ∈ m.map Prod.fst) →
      ((D.foldl decrementStep (m, q)).1.map Prod.fst = m.map Prod.fst) ∧
      (∀ k, degGet (D.foldl decrementStep (m, q)).1 k =
        if k ∈ D then (degGet m k).map (fun w => w - 1) else degGet m k) ∧
      ((D.foldl decrementStep (m, q)).2 =
        q ++ D.filter (fun k => (degGet m k).getD 0 - 1 = 0)) := by
  induction D with
  | nil => exact fun m q _ _ => ⟨rfl, fun k => by simp, by simp⟩
  | cons x D' ih =>
    intro m q hnd hkeys
    obtain ⟨w, hw⟩ : ∃ w, degGet m x = some w := by
      rcases hget : degGet m x with _ | w
      · exact absurd ((degGet_none_iff _ _).mp hget)
          (by simpa using hkeys x (List.mem_cons_self _ _))
      · exact ⟨w, rfl⟩
    have hxD' : x ∉ D' := (List.nodup_cons.mp hnd).1
    have hstep1 : (decrementStep (m, q) x).1 = degSet m x (w - 1) := by
      simp [decrementStep, hw]
    have hstep2 : (decrementStep (m, q) x).2 = if w - 1 = 0 then q ++ [x] else q := by
      simp [decrementStep, hw]
    have hkeys1 : (degSet m x (w - 1)).map Prod.fst = m.map Prod.fst :=
      degSet_keys_of_mem (degGet_some_mem_keys hw) _
    have hkeys' : ∀ k ∈ D', k ∈ (degSet m x (w - 1)).map Prod.fst := by
      intro k hk
      rw [hkeys1]
      exact hkeys k (List.mem_cons_of_mem _ hk)
    rcases ih (degSet m x (w - 1)) (if w - 1 = 0 then q ++ [x] else q)
      (List.nodup_cons.mp hnd).2 hkeys' with ⟨ih1, ih2, ih3⟩
    have hfold : (x :: D').foldl decrementStep (m, q) =
        D'.foldl decrementStep (degSet m x (w - 1), if w - 1 = 0 then q ++ [x] else q) := by
      rw [List.foldl_cons]
      congr 1
      rw [show decrementStep (m, q) x = ((decrementStep (m, q) x).1,
        (decrementStep (m, q) x).2) from rfl, hstep1, hstep2]
    refine ⟨?_, ?_, ?_⟩
    · rw [hfold, ih1, hkeys1]
    · intro k
      rw [hfold, ih2 k]
      by_cases hk : k ∈ D'
      · have hkx : k ≠ x := fun he => hxD' (he ▸ hk)
        rw [if_pos hk, if_pos (List.mem_cons_of_mem _ hk),
          degGet_degSet_other m x k _ hkx]
      · by_cases hkx : k = x
        · subst hkx
          rw [if_neg hk, if_pos (List.mem_cons_self _ _), degGet_degSet_self, hw]
          rfl
        · rw [if_neg hk, if_neg (by
            intro hmem
            rcases List.mem_cons.mp hmem with he | hmem'
            · exact hkx he
            · exact hk hmem'),
            degGet_degSet_other m x k _ hkx]
    · rw [hfold, ih3]
      have hfilter : D'.filter
          (fun k => (degGet (degSet m x (w - 1)) k).getD 0 - 1 = 0) =
          D'.filter (fun k => (degGet m k).getD 0 - 1 = 0) := by
        apply List.filter_congr
        intro k hk
        rw [degGet_degSet_other m x k _ (fun he => hxD' (he ▸ hk))]
      have hgd : (degGet m x).getD 0 = w := by
        rw [hw]
        rfl
      rw [hfilter, List.filter_cons, hgd]
      by_cases hx0 : w - 1 = 0
      · simp [hx0]
      · simp [hx0]

theorem getDependencies_nodup {d : DAG} (h : Invariants d) (k : String) :
    (d.getDependencies k).Nodup := by
  unfold getDependencies
  rcases hget : mapGet d.edges k with _ | dl
  · exact List.nodup_nil
  · exact h.deps_nodup (k, dl) (mapGet_mem hget)

theorem getDependencies_mem_nodes {d : DAG} (h : Invariants d) {k b : String}
    (hb : b ∈ d.getDependencies k) : b ∈ d.nodes := by
  unfold getDependencies at hb
  rcases hget : mapGet d.edges k with _ | dl
  · rw [hget] at hb
    cases hb
  · rw [hget] at hb
    exact h.deps_mem (k, dl) (mapGet_mem hget) b hb

theorem getDependents_nodup {d : DAG} (h : Invariants d) (n : String) :
    (d.getDependents n).Nodup := by
  unfold getDependents
  have hsub : List.Sublist ((d.edges.filter (fun p => n ∈ p.2)).map Prod.fst)
      (d.edges.map Prod.fst) :=
    (List.filter_sublist _).map Prod.fst
  exact hsub.nodup (h.keys_eq ▸ h.nodup_nodes)

theorem mem_getDependents_iff_mem_getDependencies {d : DAG} (h : Invariants d)
    (n k : String) : k ∈ d.getDependents n ↔ n ∈ d.getDependencies k := by
  have hnd : (d.edges.map Prod.fst).Nodup := h.keys_eq ▸ h.nodup_nodes
  exact stepF_iff_mem_getDependencies hnd n k

/-- In a graph satisfying the invariant, every nonempty collection of nodes
has a member none of whose dependencies lies in the collection (otherwise the
dependency relation would contain a cycle). -/
theorem exists_source {d : DAG} (hinv : Invariants d) (M : List String)
    (hsub : ∀ x ∈ M, x ∈ d.nodes) (hne : M ≠ []) :
    ∃ k ∈ M, ∀ b ∈ d.getDependencies k, b ∉ M := by
  by_contra hcon
  push_neg at hcon
  have hnd : (d.edges.map Prod.fst).Nodup := hinv.keys_eq ▸ hinv.nodup_nodes
  haveI hfin : Finite {x // x ∈ M} := by
    have hf : Finite ↥{x : String | x ∈ M} := (List.finite_toSet M).to_subtype
    exact hf
  let r : {x // x ∈ M} → {x // x ∈ M} → Prop :=
    fun a b => Relation.TransGen (stepF d) a.1 b.1
  haveI : IsTrans {x // x ∈ M} r := ⟨fun _ _ _ hab hbc => hab.trans hbc⟩
  haveI : IsIrrefl {x // x ∈ M} r := ⟨fun a => hinv.acyclic a.1⟩
  obtain ⟨x, hx⟩ : ∃ x, x ∈ M := by
    rcases M with _ | ⟨y, M'⟩
    · exact absurd rfl hne
    · exact ⟨y, List.mem_cons_self _ _⟩
  obtain ⟨a, _, hmin⟩ :=
    (Finite.wellFounded_of_trans_of_irrefl r).has_min Set.univ ⟨⟨x, hx⟩, trivial⟩
  rcases hcon a.1 a.2 with ⟨b, hbdep, hbM⟩
  exact hmin ⟨b, hbM⟩ trivial
    (Relation.TransGen.single ((stepF_iff_mem_getDependencies hnd b a.1).mpr hbdep))

theorem filter_not_mem_append_singleton_of_not_mem {l res : List String} {x : String}
    (hx : x ∉ l) :
    l.filter (fun b => b ∉ res ++ [x]) = l.filter (fun b => b ∉ res) := by
  apply List.filter_congr
  intro b hb
  have hbx : b ≠ x := fun he => hx (he ▸ hb)
  simp [hbx]

theorem length_filter_not_mem_append_singleton {l res : List String} {x : String}
    (hnd : l.Nodup) (hx : x ∈ l) (hxres : x ∉ res) :
    (l.filter (fun b => b ∉ res)).length =
      (l.filter (fun b => b ∉ res ++ [x])).length + 1 := by
  induction l with
  | nil => cases hx
  | cons a l' ih =>
    rcases List.nodup_cons.mp hnd with ⟨hal', hnd'⟩
    rcases List.mem_cons.mp hx with rfl | hx'
    · rw [List.filter_cons, List.filter_cons,
        filter_not_mem_append_singleton_of_not_mem hal']
      simp [hxres]
    · have hax : a ≠ x := fun he => hal' (he ▸ hx')
      rw [List.filter_cons, List.filter_cons]
      have hiff : (decide (a ∉ res ++ [x])) = (decide (a ∉ res)) := by
        simp [hax]
      rw [hiff]
      by_cases har : a ∈ res
      · simp only [har, not_true, decide_False, Bool.false_eq_true, if_neg]
        exact ih hnd' hx'
      · simp only [har, not_false_iff, decide_True, if_pos, List.length_cons]
        rw [ih hnd' hx']

/-- The main loop invariant of Kahn's algorithm, under the graph invariant:
starting from a consistent in-degree map, queue and partial result, the loop
ends with a permutation of all nodes in which every stored edge goes from an
earlier to a later position. -/
theorem kahnLoop_spec {d : DAG} (hinv : Invariants d) :
    ∀ (inDeg : List (String × Int)) (queue result : List String),
      inDeg.map Prod.fst = d.nodes →
      (∀ k ∈ d.nodes, degGet inDeg k =
        some (((d.getDependencies k).filter (fun b => b ∉ result)).length : Int)) →
      (result ++ queue).Nodup →
      (∀ x ∈ result ++ queue, x ∈ d.nodes) →
      (∀ k ∈ d.nodes, (k ∈ result ++ queue ↔ ∀ b ∈ d.getDependencies k, b ∈ result)) →
      (∀ k ∈ result, ∀ b ∈ d.getDependencies k, List.Sublist [b, k] result) →
      (kahnLoop d inDeg queue result).Perm d.nodes ∧
      (∀ k ∈ d.nodes, ∀ b ∈ d.getDependencies k,
        List.Sublist [b, k] (kahnLoop d inDeg queue result)) := by
  intro inDeg queue result
  induction inDeg, queue, result using kahnLoop.induct d with
  | case1 inDeg result =>
    intro hkeys hdeg hnd hsubn hiff hsort
    rw [List.append_nil] at hnd hsubn
    have hloop : kahnLoop d inDeg [] result = result := by
      rw [kahnLoop]
    rw [hloop]
    have hsubres : ∀ k ∈ d.nodes, k ∈ result := by
      by_contra hcon
      push_neg at hcon
      obtain ⟨k₀, hk₀n, hk₀r⟩ := hcon
      have hMne : d.nodes.filter (fun n => n ∉ result) ≠ [] := by
        intro hnil
        have hk₀M : k₀ ∈ d.nodes.filter (fun n => n ∉ result) :=
          List.mem_filter.mpr ⟨hk₀n, by simpa using hk₀r⟩
        rw [hnil] at hk₀M
        cases hk₀M
      obtain ⟨k, hkM, hkdeps⟩ := exists_source hinv _
        (fun x hx => (List.mem_filter.mp hx).1) hMne
      have hkn : k ∈ d.nodes := (List.mem_filter.mp hkM).1
      have hknr : k ∉ result := by simpa using (List.mem_filter.mp hkM).2
      have hnotall : ¬ ∀ b ∈ d.getDependencies k, b ∈ result := by
        intro hall
        exact hknr (by
          have hk' := (hiff k hkn).mpr hall
          simpa using hk')
      push_neg at hnotall
      obtain ⟨b, hbdep, hbres⟩ := hnotall
      exact hkdeps b hbdep (List.mem_filter.mpr
        ⟨getDependencies_mem_nodes hinv hbdep, by simpa using hbres⟩)
    constructor
    · exact List.Subperm.antisymm
        (List.subperm_of_subset hnd (fun x hx => hsubn x hx))
        (List.subperm_of_subset hinv.nodup_nodes hsubres)
    · intro k hk b hb
      exact hsort k (hsubres k hk) b hb
  | case2 inDeg result node queueRest step ih =>
    intro hkeys hdeg hnd hsubn hiff hsort
    have hnodemem : node ∈ d.nodes := hsubn node (by simp)
    have hnodenotres : node ∉ result := fun hmem =>
      (List.disjoint_of_nodup_append hnd) hmem (by simp)
    have hdepsnode : ∀ b ∈ d.getDependencies node, b ∈ result :=
      (hiff node hnodemem).mp (by simp)
    have hDnd : (d.getDependents node).Nodup := getDependents_nodup hinv node
    have hDsubn : ∀ k ∈ d.getDependents node, k ∈ d.nodes := fun k hk =>
      hinv.keys_eq ▸ mem_keys_of_mem_getDependents hk
    have hDkeys : ∀ k ∈ d.getDependents node, k ∈ inDeg.map Prod.fst := fun k hk =>
      hkeys ▸ hDsubn k hk
    rcases foldDec_char (d.getDependents node) inDeg queueRest hDnd hDkeys with
      ⟨hf1, hf2, hf3⟩
    have hstep1 : step.1.map Prod.fst = inDeg.map Prod.fst := hf1
    have hstep2 : ∀ k, degGet step.1 k =
        if k ∈ d.getDependents node then (degGet inDeg k).map (fun w => w - 1)
        else degGet inDeg k := hf2
    have hstep3 : step.2 = queueRest ++ (d.getDependents node).filter
        (fun k => (degGet inDeg k).getD 0 - 1 = 0) := hf3
    have hDiff : ∀ k, k ∈ d.getDependents node ↔ node ∈ d.getDependencies k :=
      fun k => mem_getDependents_iff_mem_getDependencies hinv node k
    -- no node of the old result/queue can be freshly enqueued
    have hDold : ∀ k, k ∈ d.getDependents node → k ∉ result ++ node :: queueRest := by
      intro k hkD hkold
      have hknode : node ∈ d.getDependencies k := (hDiff k).mp hkD
      rcases List.mem_append.mp hkold with hkr | hkq
      · exact hnodenotres ((hiff k (hsubn k hkold)).mp (List.mem_append.mpr (Or.inl hkr))
          node hknode)
      · rcases List.mem_cons.mp hkq with rfl | hkq'
        · exact hinv.acyclic k (Relation.TransGen.single (show stepF d k k from hkD))
        · exact hnodenotres ((hiff k (hsubn k hkold)).mp hkold node hknode)
    -- the new in-degree map counts dependencies outside `result ++ [node]`
    have hdeg' : ∀ k ∈ d.nodes, degGet step.1 k =
        some (((d.getDependencies k).filter
          (fun b => b ∉ result ++ [node])).length : Int) := by
      intro k hk
      rw [hstep2 k]
      by_cases hkD : k ∈ d.getDependents node
      · rw [if_pos hkD, hdeg k hk]
        have hnode_in : node ∈ d.getDependencies k := (hDiff k).mp hkD
        have harith := length_filter_not_mem_append_singleton
          (getDependencies_nodup hinv k) hnode_in hnodenotres
        simp only [Option.map_some']
        congr 1
        rw [harith]
        push_cast
        ring
      · rw [if_neg hkD, hdeg k hk]
        have hnode_not : node ∉ d.getDependencies k := fun hin => hkD ((hDiff k).mpr hin)
        rw [filter_not_mem_append_singleton_of_not_mem hnode_not]
    -- the enqueued nodes are exactly the dependents whose last dependency was node
    have hpush_iff : ∀ k, (k ∈ (d.getDependents node).filter
        (fun k => (degGet inDeg k).getD 0 - 1 = 0)) ↔
        (k ∈ d.getDependents node ∧
          ((d.getDependencies k).filter (fun b => b ∉ result ++ [node])).length = 0) := by
      intro k
      rw [List.mem_filter]
      constructor
      · rintro ⟨hkD, hcond⟩
        refine ⟨hkD, ?_⟩
        rw [hdeg k (hDsubn k hkD)] at hcond
        have harith := length_filter_not_mem_append_singleton
          (getDependencies_nodup hinv k) ((hDiff k).mp hkD) hnodenotres
        simp only [Option.getD_some, decide_eq_true_eq] at hcond
        omega
      · rintro ⟨hkD, hcond⟩
        refine ⟨hkD, ?_⟩
        rw [hdeg k (hDsubn k hkD)]
        have harith := length_filter_not_mem_append_singleton
          (getDependencies_nodup hinv k) ((hDiff k).mp hkD) hnodenotres
        simp only [Option.getD_some, decide_eq_true_eq]
        omega
    have hloop : kahnLoop d inDeg (node :: queueRest) result =
        kahnLoop d step.1 step.2 (result ++ [node]) := by
      rw [kahnLoop]
    rw [hloop]
    apply ih
    · rw [hstep1]
      exact hkeys
    · exact hdeg'
    · -- Nodup of (result ++ [node]) ++ step.2
      rw [hstep3]
      have hshape : (result ++ [node]) ++ (queueRest ++ (d.getDependents node).filter
          (fun k => (degGet inDeg k).getD 0 - 1 = 0)) =
          (result ++ node :: queueRest) ++ (d.getDependents node).filter
            (fun k => (degGet inDeg k).getD 0 - 1 = 0) := by
        simp only [List.append_assoc, List.singleton_append, List.cons_append,
          List.nil_append]
      rw [hshape]
      rw [List.nodup_append]
      refine ⟨hnd, (hDnd.filter _), ?_⟩
      intro a ha haf
      exact hDold a (List.mem_of_mem_filter haf) ha
    · intro x hx
      rw [hstep3] at hx
      rcases List.mem_append.mp hx with hx | hx
      · rcases List.mem_append.mp hx with hx | hx
        · exact hsubn x (List.mem_append.mpr (Or.inl hx))
        · rcases List.mem_singleton.mp hx with rfl
          exact hnodemem
      · rcases List.mem_append.mp hx with hx | hx
        · exact hsubn x (List.mem_append.mpr (Or.inr (List.mem_cons_of_mem _ hx)))
        · exact hDsubn x (List.mem_of_mem_filter hx)
    · intro k hk
      rw [hstep3]
      constructor
      · intro hmem
        rcases List.mem_append.mp hmem with hmem | hmem
        · rcases List.mem_append.mp hmem with hmem | hmem
          · intro b hb
            exact List.mem_append.mpr (Or.inl
              ((hiff k hk).mp (List.mem_append.mpr (Or.inl hmem)) b hb))
          · rcases List.mem_singleton.mp hmem with rfl
            intro b hb
            exact List.mem_append.mpr (Or.inl (hdepsnode b hb))
        · rcases List.mem_append.mp hmem with hmem | hmem
          · intro b hb
            exact List.mem_append.mpr (Or.inl
              ((hiff k hk).mp (List.mem_append.mpr
                (Or.inr (List.mem_cons_of_mem _ hmem))) b hb))
          · intro b hb
            have hc := ((hpush_iff k).mp hmem).2
            by_contra hbnot
            have hbf : b ∈ (d.getDependencies k).filter
                (fun b => b ∉ result ++ [node]) :=
              List.mem_filter.mpr ⟨hb, by simpa using hbnot⟩
            rw [List.length_eq_zero] at hc
            rw [hc] at hbf
            cases hbf
      · intro hall
        by_cases hknode : node ∈ d.getDependencies k
        · have hkD : k ∈ d.getDependents node := (hDiff k).mpr hknode
          refine List.mem_append.mpr (Or.inr (List.mem_append.mpr (Or.inr ?_)))
          rw [hpush_iff k]
          refine ⟨hkD, ?_⟩
          rw [List.length_eq_zero, List.filter_eq_nil_iff]
          intro b hb hcon
          exact (of_decide_eq_true hcon) (hall b hb)
        · have hall' : ∀ b ∈ d.getDependencies k, b ∈ result := by
            intro b hb
            rcases List.mem_append.mp (hall b hb) with hbr | hbn
            · exact hbr
            · rcases List.mem_singleton.mp hbn with rfl
              exact absurd hb hknode
          have hold := (hiff k hk).mpr hall'
          rcases List.mem_append.mp hold with hkr | hkq
          · exact List.mem_append.mpr (Or.inl (List.mem_append.mpr (Or.inl hkr)))
          · rcases List.mem_cons.mp hkq with rfl | hkq'
            · exact List.mem_append.mpr (Or.inl (List.mem_append.mpr (Or.inr (by simp))))
            · exact List.mem_append.mpr (Or.inr (List.mem_append.mpr (Or.inl hkq')))
    · intro k hk b hb
      rcases List.mem_append.mp hk with hkr | hkn
      · exact (hsort k hkr b hb).trans (List.sublist_append_left _ _)
      · rcases List.mem_singleton.mp hkn with rfl
        have hbres : b ∈ result := hdepsnode b hb
        exact List.Sublist.append (List.singleton_sublist.mpr hbres)
          (List.Sublist.refl [k])

/-- The Kahn phase, started from the real initialization, under the
invariant: it emits a permutation of the node set that respects every
stored dependency. -/
theorem kahnResult_spec {d : DAG} (hinv : Invariants d) :
    (kahnResult d).Perm d.nodes ∧
    (∀ k ∈ d.nodes, ∀ b ∈ d.getDependencies k,
      List.Sublist [b, k] (kahnResult d)) := by
  simp only [kahnResult]
  rw [buildInDegree_eq hinv]
  have hseed := seedQueue_eq hinv
  rw [buildInDegree_eq hinv] at hseed
  rw [hseed]
  apply kahnLoop_spec hinv
  · rw [List.map_map]
    exact List.map_id d.nodes
  · intro k hk
    rw [degGet_map_graph, if_pos hk]
    congr 1
    rw [show (d.getDependencies k).filter (fun b => b ∉ ([] : List String)) =
      d.getDependencies k from List.filter_eq_self.mpr (fun b _ => by simp)]
  · rw [List.nil_append]
    exact hinv.nodup_nodes.filter _
  · intro x hx
    rw [List.nil_append] at hx
    exact (List.mem_filter.mp hx).1
  · intro k hk
    rw [List.nil_append, List.mem_filter]
    constructor
    · rintro ⟨_, hempty⟩
      intro b hb
      rw [List.isEmpty_iff] at hempty
      rw [show d.getDependencies k = [] from by simpa using hempty] at hb
      cases hb
    · intro hall
      refine ⟨hk, ?_⟩
      have : d.getDependencies k = [] := by
        rcases hd : d.getDependencies k with _ | ⟨b, l⟩
        · rfl
        · have := hall b (hd ▸ List.mem_cons_self _ _)
          cases this
      simp [this]
  · intro k hk
    cases hk

theorem topologicalSort_eq_kahnResult {d : DAG} (hinv : Invariants d) :
    topologicalSort d = kahnResult d := by
  unfold topologicalSort
  rw [if_neg]
  intro hne
  exact hne ((kahnResult_spec hinv).1.length_eq)

/-- In a duplicate-free list, the two members of an embedded pair occur at
strictly increasing positions. -/
theorem indexOf_lt_of_sublist_pair :
    ∀ {l : List String}, l.Nodup → ∀ {b k : String}, List.Sublist [b, k] l →
      l.indexOf b < l.indexOf k := by
  intro l
  induction l with
  | nil =>
    intro _ b k h
    have : ([b, k] : List String) = [] := List.sublist_nil.mp h
    cases this
  | cons a l' ih =>
    intro hnd b k h
    have hbk : b ≠ k := by
      have hp : ([b, k] : List String).Nodup := h.nodup hnd
      simpa using (List.nodup_cons.mp hp).1
    cases h with
    | cons a h' =>
      have hb' : b ∈ l' := h'.subset (by simp)
      have hk' : k ∈ l' := h'.subset (by simp)
      have hab : a ≠ b := fun he => (List.nodup_cons.mp hnd).1 (he ▸ hb')
      have hak : a ≠ k := fun he => (List.nodup_cons.mp hnd).1 (he ▸ hk')
      rw [List.indexOf_cons_ne _ hab, List.indexOf_cons_ne _ hak]
      exact Nat.succ_lt_succ (ih (List.nodup_cons.mp hnd).2 h')
    | cons₂ a h' =>
      rw [List.indexOf_cons_self, List.indexOf_cons_ne _ hbk]
      exact Nat.succ_pos _

/-! ## `getAllEdges`, `canMoveTo`, and serialization -/

theorem mem_getAllEdges_iff (d : DAG) (b k : String) :
    (b, k) ∈ d.getAllEdges ↔ ∃ dl, (k, dl) ∈ d.edges ∧ b ∈ dl := by
  unfold getAllEdges
  rw [List.mem_flatten]
  constructor
  · rintro ⟨block, hblock, hmem⟩
    rcases List.mem_map.mp hblock with ⟨p, hp, rfl⟩
    rcases List.mem_map.mp hmem with ⟨f, hf, hfe⟩
    have hfb : f = b := congrArg Prod.fst hfe
    have hpk : p.1 = k := congrArg Prod.snd hfe
    exact ⟨p.2, by
      have hpe : p = (k, p.2) := Prod.ext hpk rfl
      exact hpe ▸ hp, hfb ▸ hf⟩
  · rintro ⟨dl, hmem, hb⟩
    exact ⟨dl.map (fun f => (f, k)), List.mem_map.mpr ⟨(k, dl), hmem, rfl⟩,
      List.mem_map.mpr ⟨b, hb, rfl⟩⟩

theorem mem_getAllEdges_iff_getDependencies {d : DAG} (hinv : Invariants d)
    (b k : String) : (b, k) ∈ d.getAllEdges ↔ b ∈ d.getDependencies k := by
  rw [mem_getAllEdges_iff]
  have h1 := stepF_iff_mem_getDependencies (hinv.keys_eq ▸ hinv.nodup_nodes) b k
  constructor
  · intro hex
    exact h1.mp ((mem_getDependents_iff d b k).mpr hex)
  · intro hmem
    exact (mem_getDependents_iff d b k).mp (h1.mpr hmem)

theorem getAllEdges_nodup {d : DAG} (hinv : Invariants d) : d.getAllEdges.Nodup := by
  unfold getAllEdges
  rw [List.nodup_flatten]
  constructor
  · intro block hblock
    rcases List.mem_map.mp hblock with ⟨p, hp, rfl⟩
    exact (hinv.deps_nodup p hp).map (fun x y hxy => congrArg Prod.fst hxy)
  · have hkeysnd : (d.edges.map Prod.fst).Nodup := hinv.keys_eq ▸ hinv.nodup_nodes
    have hpw : d.edges.Pairwise (fun p q => p.1 ≠ q.1) := List.pairwise_map.mp hkeysnd
    refine List.Pairwise.map _ ?_ hpw
    intro p q hpq x hxp hxq
    rcases List.mem_map.mp hxp with ⟨f, _, rfl⟩
    rcases List.mem_map.mp hxq with ⟨g, _, hge⟩
    exact hpq (congrArg Prod.snd hge).symm

theorem edgesList_filter_snd (es : List (String × List String))
    (hnd : (es.map Prod.fst).Nodup) (k : String) :
    (((es.map (fun p => p.2.map (fun fromId => (fromId, p.1)))).flatten.filter
      (fun q => q.2 = k)).map Prod.fst) = (mapGet es k).getD [] := by
  induction es with
  | nil => simp [mapGet]
  | cons p rest ih =>
    have hndc : (p.1 :: rest.map Prod.fst).Nodup := by
      rw [← List.map_cons]
      exact hnd
    have hout : p.1 ∉ rest.map Prod.fst := (List.nodup_cons.mp hndc).1
    have hndrest : (rest.map Prod.fst).Nodup := (List.nodup_cons.mp hndc).2
    rw [List.map_cons, List.flatten_cons, List.filter_append, List.map_append]
    by_cases hpk : p.1 = k
    · have hblock : (p.2.map (fun fromId => (fromId, p.1))).filter
          (fun q => q.2 = k) = p.2.map (fun fromId => (fromId, p.1)) := by
        apply List.filter_eq_self.mpr
        intro q hq
        rcases List.mem_map.mp hq with ⟨f, _, rfl⟩
        simpa using hpk
      have hrest : ((rest.map (fun p => p.2.map (fun fromId =>
          (fromId, p.1)))).flatten.filter (fun q => q.2 = k)) = [] := by
        rw [List.filter_eq_nil_iff]
        intro q hq
        rw [List.mem_flatten] at hq
        rcases hq with ⟨block, hblock', hmem⟩
        rcases List.mem_map.mp hblock' with ⟨r, hr, rfl⟩
        rcases List.mem_map.mp hmem with ⟨f, _, rfl⟩
        have hrk : r.1 ≠ k := by
          intro he
          have hm : r.1 ∈ rest.map Prod.fst := List.mem_map_of_mem Prod.fst hr
          rw [he, ← hpk] at hm
          exact hout hm
        simpa using hrk
      rw [hblock, hrest, mapGet_cons_self hpk]
      simp only [List.map_nil, List.append_nil, Option.getD_some, List.map_map]
      have hcomp : (Prod.fst ∘ fun fromId : String => (fromId, p.1)) =
          (id : String → String) := rfl
      rw [hcomp, List.map_id]
    · have hblock : (p.2.map (fun fromId => (fromId, p.1))).filter
          (fun q => q.2 = k) = [] := by
        rw [List.filter_eq_nil_iff]
        intro q hq
        rcases List.mem_map.mp hq with ⟨f, _, rfl⟩
        simpa using hpk
      rw [hblock, mapGet_cons_ne hpk]
      simp only [List.map_nil, List.nil_append]
      exact ih hndrest

/-- The pairs of `getAllEdges` targeting `k` list exactly `k`'s stored
dependencies, in order. -/
theorem getAllEdges_filter_snd {d : DAG} (hinv : Invariants d) (k : String) :
    ((d.getAllEdges.filter (fun p => p.2 = k)).map Prod.fst) = d.getDependencies k := by
  have hnd : (d.edges.map Prod.fst).Nodup := hinv.keys_eq ▸ hinv.nodup_nodes
  unfold getAllEdges getDependencies
  exact edgesList_filter_snd d.edges hnd k

theorem matchIndexBool (o : Option Nat) (p : Nat → Prop) [DecidablePred p] :
    ((match o with
      | none => true
      | some i => decide (p i)) = true) ↔ ∀ i, o = some i → p i := by
  rcases o with _ | i
  · simp
  · simp

/-- `canMoveTo` holds exactly when every dependency found in the candidate
order sits strictly before the target index and every dependent found in the
candidate order sits at or after it. -/
theorem canMoveTo_iff (d : DAG) (id : String) (t : Nat) (order : List String) :
    canMoveTo d id t order = true ↔
      ((∀ dep ∈ d.getDependencies id, ∀ i, indexOfOpt order dep = some i → i < t) ∧
       (∀ dep ∈ d.getDependents id, ∀ i, indexOfOpt order dep = some i → t ≤ i)) := by
  unfold canMoveTo
  rw [Bool.and_eq_true, List.all_eq_true, List.all_eq_true]
  constructor
  · rintro ⟨h1, h2⟩
    constructor
    · intro dep hdep i hi
      have := (matchIndexBool (indexOfOpt order dep) (fun i => i < t)).mp (h1 dep hdep) i hi
      exact this
    · intro dep hdep i hi
      have := (matchIndexBool (indexOfOpt order dep) (fun i => ¬ i < t)).mp
        (h2 dep hdep) i hi
      omega
  · rintro ⟨h1, h2⟩
    constructor
    · intro dep hdep
      exact (matchIndexBool (indexOfOpt order dep) (fun i => i < t)).mpr (h1 dep hdep)
    · intro dep hdep
      refine (matchIndexBool (indexOfOpt order dep) (fun i => ¬ i < t)).mpr ?_
      intro i hi
      have := h2 dep hdep i hi
      omega

/-! ## Round-trip of serialization -/

theorem mapExt {m₁ m₂ : List (String × List String)}
    (hk : m₁.map Prod.fst = m₂.map Prod.fst) (hnd : (m₁.map Prod.fst).Nodup)
    (hget : ∀ k, mapGet m₁ k = mapGet m₂ k) : m₁ = m₂ := by
  induction m₁ generalizing m₂ with
  | nil => exact (List.map_eq_nil_iff.mp hk.symm).symm
  | cons p r ih =>
    rcases m₂ with _ | ⟨q, r₂⟩
    · cases hk
    · simp only [List.map_cons, List.cons.injEq] at hk
      have hpq : p = q := by
        have h1 := hget p.1
        rw [mapGet_cons_self rfl, mapGet_cons_self hk.1.symm] at h1
        exact Prod.ext hk.1 (Option.some.injEq _ _ ▸ h1)
      subst hpq
      have hndc : (p.1 :: r.map Prod.fst).Nodup := by
        rw [← List.map_cons]
        exact hnd
      have hndr : (r.map Prod.fst).Nodup := (List.nodup_cons.mp hndc).2
      have hout : p.1 ∉ r.map Prod.fst := (List.nodup_cons.mp hndc).1
      have hout₂ : p.1 ∉ r₂.map Prod.fst := hk.2 ▸ hout
      refine congrArg (p :: ·) (ih hk.2 hndr ?_)
      intro k
      by_cases hkp : k = p.1
      · subst hkp
        rw [(mapGet_none_iff _ _).mpr hout, (mapGet_none_iff _ _).mpr hout₂]
      · have h1 := hget k
        rwa [mapGet_cons_ne (fun he => hkp he.symm),
          mapGet_cons_ne (fun he => hkp he.symm)] at h1

/-- Two graphs with the same nodes, both satisfying the key/nodup parts of
the invariant, and the same dependency lookups, are equal. -/
theorem dag_ext {c d : DAG} (hck : c.edges.map Prod.fst = c.nodes)
    (hdk : d.edges.map Prod.fst = d.nodes) (hnd : c.nodes.Nodup)
    (hnodes : c.nodes = d.nodes)
    (hdeps : ∀ k, c.getDependencies k = d.getDependencies k) : c = d := by
  rcases c with ⟨ce, cn⟩
  rcases d with ⟨de, dn⟩
  simp only at hck hdk hnodes
  subst hnodes
  have he : ce = de := by
    apply mapExt (hck.trans hdk.symm) (hck ▸ hnd)
    intro k
    by_cases hkmem : k ∈ cn
    · have h1 := hdeps k
      unfold getDependencies at h1
      simp only at h1
      rcases mapGet_isSome_of_mem_keys (m := ce) (hck.symm ▸ hkmem) with ⟨dl, hdl⟩
      rcases mapGet_isSome_of_mem_keys (m := de) (hdk.symm ▸ hkmem) with ⟨dl', hdl'⟩
      rw [hdl, hdl']
      rw [hdl, hdl'] at h1
      simpa using h1
    · rw [(mapGet_none_iff _ _).mpr (fun hm => hkmem (hck ▸ hm)),
        (mapGet_none_iff _ _).mpr (fun hm => hkmem (hdk ▸ hm))]
  rw [he]

theorem getDependencies_ne_nil_mem_nodes {d : DAG} (hinv : Invariants d) {k : String}
    (h : d.getDependencies k ≠ []) : k ∈ d.nodes := by
  unfold getDependencies at h
  rcases hget : mapGet d.edges k with _ | dl
  · rw [hget] at h
    simp at h
  · have := mapGet_mem hget
    exact hinv.keys_eq ▸ List.mem_map_of_mem Prod.fst this

/-- Replaying a list of remaining edge pairs on a partially rebuilt graph
finishes the reconstruction: every pair passes the self-loop, duplicate and
cycle checks because the target graph is invariant-respecting. -/
theorem replay_spec {d : DAG} (hinv : Invariants d) :
    ∀ (R : List (String × String)) (c : DAG),
      Invariants c →
      c.nodes = d.nodes →
      (∀ u v, stepF c u v → stepF d u v) →
      (∀ k, c.getDependencies k ++ (R.filter (fun p => p.2 = k)).map Prod.fst =
        d.getDependencies k) →
      R.foldl (fun c p => (c.addEdge p.1 p.2).2) c = d := by
  intro R
  induction R with
  | nil =>
    intro c hc hnodes _ hdeps
    simp only [List.foldl_nil]
    apply dag_ext hc.keys_eq hinv.keys_eq hc.nodup_nodes hnodes
    intro k
    have h := hdeps k
    simpa using h
  | cons pr R' ih =>
    intro c hc hnodes hsub hdeps
    obtain ⟨b, k₀⟩ := pr
    have hdndkeys : (d.edges.map Prod.fst).Nodup := hinv.keys_eq ▸ hinv.nodup_nodes
    have hdep0 : c.getDependencies k₀ ++
        b :: (R'.filter (fun p => p.2 = k₀)).map Prod.fst = d.getDependencies k₀ := by
      have h := hdeps k₀
      rw [List.filter_cons] at h
      simpa using h
    have hbin : b ∈ d.getDependencies k₀ := by
      rw [← hdep0]
      simp
    have hndd := getDependencies_nodup hinv k₀
    have hbnotc : b ∉ c.getDependencies k₀ := by
      rw [← hdep0] at hndd
      intro hbc'
      exact (List.disjoint_of_nodup_append hndd) hbc' (by simp)
    have hbnodes : b ∈ d.nodes := getDependencies_mem_nodes hinv hbin
    have hk₀nodes : k₀ ∈ d.nodes := getDependencies_ne_nil_mem_nodes hinv (by
      intro hnil
      rw [hnil] at hbin
      cases hbin)
    have hstepd : stepF d b k₀ := (stepF_iff_mem_getDependencies hdndkeys b k₀).mpr hbin
    have hbk₀ : b ≠ k₀ := by
      intro he
      exact hinv.acyclic k₀ (Relation.TransGen.single (he ▸ hstepd))
    have hbc : b ∈ c.nodes := hnodes ▸ hbnodes
    have hkc : k₀ ∈ c.nodes := hnodes ▸ hk₀nodes
    have haddk : (c.addNode b).addNode k₀ = c := by
      rw [addNode_of_mem hbc]
      exact addNode_of_mem hkc
    have hdup : b ∉ ((c.addNode b).addNode k₀).getDependencies k₀ := by
      rw [haddk]
      exact hbnotc
    have hcyc : wouldCreateCycle ((c.addNode b).addNode k₀) b k₀ = false := by
      rw [haddk]
      by_contra hne
      rw [Bool.not_eq_false] at hne
      have hreach : Relation.ReflTransGen (stepF c) k₀ b :=
        (canReachForward_iff c k₀ b).mp hne
      have hreachd : Relation.ReflTransGen (stepF d) k₀ b :=
        Relation.ReflTransGen.mono hsub hreach
      exact hinv.acyclic b (Relation.TransGen.head' hstepd hreachd)
    have haddeq := addEdge_eq_added (d := c) hbk₀ hdup hcyc
    have hc2 : (c.addEdge b k₀).2 =
        { c with edges := mapAdjust c.edges k₀ (fun deps => setAdd deps b) } := by
      rw [haddeq, haddk]
    have hc' : Invariants (c.addEdge b k₀).2 := invariants_addEdge hc b k₀
    rw [hc2] at hc'
    simp only [List.foldl_cons]
    rw [hc2]
    apply ih
    · exact hc'
    · exact hnodes
    · intro u v hstep
      rcases (stepF_insert hc hkc u v).mp hstep with hold | ⟨rfl, rfl⟩
      · exact hsub u v hold
      · exact hstepd
    · intro k
      by_cases hkk : k = k₀
      · subst hkk
        have hdeps' : getDependencies
            { c with edges := mapAdjust c.edges k (fun deps => setAdd deps b) } k =
            c.getDependencies k ++ [b] := by
          unfold getDependencies
          rw [mapGet_mapAdjust_self]
          rcases mapGet_isSome_of_mem_keys (m := c.edges) (hc.keys_eq.symm ▸ hkc) with
            ⟨dl, hdl⟩
          have hcd : c.getDependencies k = dl := by
            unfold getDependencies
            rw [hdl]
            rfl
          rw [hdl]
          simp only [Option.map_some', Option.getD_some]
          unfold setAdd
          rw [if_neg (hcd ▸ hbnotc)]
        rw [hdeps']
        rw [List.append_assoc]
        simpa using hdep0
      · have hdeps' : getDependencies
            { c with edges := mapAdjust c.edges k₀ (fun deps => setAdd deps b) } k =
            c.getDependencies k := by
          unfold getDependencies
          rw [mapGet_mapAdjust_other _ _ _ _ hkk]
        rw [hdeps']
        have h := hdeps k
        rw [List.filter_cons] at h
        have hcond : (decide (((b, k₀) : String × String).2 = k)) = false := by
          simp only [decide_eq_false_iff_not]
          exact fun he => hkk he.symm
        rw [hcond] at h
        simpa using h

theorem addNode_foldl_fresh :
    ∀ (l : List String) (c : DAG), l.Nodup → (∀ x ∈ l, x ∉ c.nodes) →
      l.foldl (fun d n => d.addNode n) c =
        ⟨c.edges ++ l.map (fun n => (n, [])), c.nodes ++ l⟩ := by
  intro l
  induction l with
  | nil =>
    intro c _ _
    simp
  | cons n l' ih =>
    intro c hnd hfresh
    have hn : n ∉ c.nodes := hfresh n (List.mem_cons_self _ _)
    have hstep : c.addNode n = ⟨c.edges ++ [(n, [])], c.nodes ++ [n]⟩ := by
      unfold addNode mapSetNew
      rw [if_neg hn]
    rw [List.foldl_cons, hstep, ih _ (List.nodup_cons.mp hnd).2 ?_]
    · simp
    · intro x hx
      simp only [List.mem_append, List.mem_singleton, not_or]
      exact ⟨hfresh x (List.mem_cons_of_mem _ hx),
        fun he => (List.nodup_cons.mp hnd).1 (he ▸ hx)⟩

theorem mapGet_map_nil (l : List String) (k : String) :
    mapGet (l.map (fun n => (n, ([] : List String)))) k =
      if k ∈ l then some [] else none := by
  induction l with
  | nil => simp [mapGet]
  | cons n l' ih =>
    by_cases hk : n = k
    · subst hk
      rw [List.map_cons, mapGet_cons_self rfl]
      simp
    · rw [List.map_cons, mapGet_cons_ne hk, ih]
      simp [Ne.symm hk, hk]

/-- Round trip: serializing an invariant-respecting graph and replaying the
result through `addNode`/`addEdge` reconstructs the graph exactly. -/
theorem deserialize_serialize {d : DAG} (hinv : Invariants d) :
    deserializeDAG (serializeDAG d) = d := by
  unfold deserializeDAG serializeDAG
  simp only
  rw [addNode_foldl_fresh d.nodes dagEmpty hinv.nodup_nodes (by
    intro x _
    simp [dagEmpty])]
  simp only [dagEmpty, List.nil_append]
  have hnostep : ∀ u v, ¬ stepF (⟨d.nodes.map (fun n => (n, [])), d.nodes⟩ : DAG) u v := by
    intro u v hs
    rcases (mem_getDependents_iff _ _ _).mp hs with ⟨dl, hmem, hu⟩
    simp only at hmem
    rcases List.mem_map.mp hmem with ⟨n, _, he⟩
    have hdl : dl = [] := (congrArg Prod.snd he).symm
    rw [hdl] at hu
    cases hu
  have hc₀ : Invariants (⟨d.nodes.map (fun n => (n, [])), d.nodes⟩ : DAG) := by
    refine ⟨?_, hinv.nodup_nodes, ?_, ?_, ?_⟩
    · simp only
      rw [List.map_map]
      exact List.map_id d.nodes
    · intro p hp
      simp only at hp
      rcases List.mem_map.mp hp with ⟨n, _, rfl⟩
      exact List.nodup_nil
    · intro p hp x hx
      simp only at hp
      rcases List.mem_map.mp hp with ⟨n, _, rfl⟩
      cases hx
    · intro n h
      cases h with
      | single hs => exact hnostep _ _ hs
      | tail _ hs => exact hnostep _ _ hs
  apply replay_spec hinv (d.getAllEdges) _ hc₀ rfl
  · intro u v hs
    exact absurd hs (hnostep u v)
  · intro k
    have hleft : getDependencies (⟨d.nodes.map (fun n => (n, [])), d.nodes⟩ : DAG) k =
        [] := by
      unfold getDependencies
      simp only
      rw [mapGet_map_nil]
      by_cases hk : k ∈ d.nodes <;> simp [hk]
    rw [hleft, List.nil_append]
    exact getAllEdges_filter_snd hinv k

theorem mapGet_append_singleton (m : List (String × List String)) (id k : String)
    (v : List String) :
    mapGet (m ++ [(id, v)]) k =
      match mapGet m k with
      | some dl => some dl
      | none => if k = id then some v else none := by
  induction m with
  | nil =>
    simp only [List.nil_append, mapGet]
    by_cases hk : id = k
    · subst hk
      simp [List.find?]
    · have hk' : k ≠ id := fun he => hk he.symm
      simp [List.find?, hk, hk']
  | cons p rest ih =>
    by_cases hp : p.1 = k
    · rw [List.cons_append, mapGet_cons_self hp, mapGet_cons_self hp]
    · rw [List.cons_append, mapGet_cons_ne hp, mapGet_cons_ne hp, ih]

/-- Under the invariant, `addNode` does not change any dependency lookup:
a pre-existing node is untouched and a fresh node gets the empty set, which
is what the lookup defaulted to anyway. -/
theorem getDependencies_addNode_inv {d : DAG} (_hinv : Invariants d) (id k : String) :
    (d.addNode id).getDependencies k = d.getDependencies k := by
  by_cases hmem : id ∈ d.nodes
  · rw [addNode_of_mem hmem]
  · unfold getDependencies
    rw [addNode_edges]
    rw [if_neg hmem]
    rw [mapGet_append_singleton]
    rcases hget : mapGet d.edges k with _ | dl
    · by_cases hk : k = id <;> simp [hk]
    · simp

/-- A nontrivial reachability chain pins both endpoints inside the node set. -/
theorem reach_endpoints {d : DAG} (hinv : Invariants d) {t f : String} (hft : t ≠ f)
    (hreach : Relation.ReflTransGen (stepF d) t f) : t ∈ d.nodes ∧ f ∈ d.nodes := by
  have htrans : Relation.TransGen (stepF d) t f := by
    rcases Relation.reflTransGen_iff_eq_or_transGen.mp hreach with he | h
    · exact absurd he.symm hft
    · exact h
  constructor
  · rcases Relation.TransGen.head'_iff.mp htrans with ⟨c, hstep, _⟩
    rcases (mem_getDependents_iff _ _ _).mp hstep with ⟨dl, hmem, ht⟩
    exact hinv.deps_mem _ hmem t ht
  · rcases Relation.TransGen.tail'_iff.mp htrans with ⟨c', _, hstep⟩
    exact hinv.keys_eq ▸ mem_keys_of_mem_getDependents hstep

/-- Exhaustive description of `addEdge` on an invariant-respecting graph:
the four outcomes, keyed by self-loop, duplicate membership and
forward reachability; the three failure outcomes leave the graph exactly
as it was. -/
theorem addEdge_cases {d : DAG} (hinv : Invariants d) (f t : String) :
    (f = t ∧ d.addEdge f t = (.selfLoop, d)) ∨
    (f ≠ t ∧ f ∈ d.getDependencies t ∧ d.addEdge f t = (.duplicate, d)) ∨
    (f ≠ t ∧ f ∉ d.getDependencies t ∧ Relation.ReflTransGen (stepF d) t f ∧
      d.addEdge f t = (.cycle, d)) ∨
    (f ≠ t ∧ f ∉ d.getDependencies t ∧ ¬ Relation.ReflTransGen (stepF d) t f ∧
      (d.addEdge f t).1 = .added ∧ f ∈ (d.addEdge f t).2.getDependencies t) := by
  by_cases hft : f = t
  · exact Or.inl ⟨hft, addEdge_eq_selfLoop hft⟩
  · have hinv₁ : Invariants (d.addNode f) := invariants_addNode hinv f
    have hinv₂ : Invariants ((d.addNode f).addNode t) :=
      invariants_addNode hinv₁ t
    have hdeps₂ : ((d.addNode f).addNode t).getDependencies t = d.getDependencies t := by
      rw [getDependencies_addNode_inv hinv₁, getDependencies_addNode_inv hinv]
    have hstep₂ : stepF ((d.addNode f).addNode t) = stepF d := by
      rw [stepF_addNode, stepF_addNode]
    by_cases hdup : f ∈ d.getDependencies t
    · refine Or.inr (Or.inl ⟨hft, hdup, ?_⟩)
      have hfn : f ∈ d.nodes := getDependencies_mem_nodes hinv hdup
      have htn : t ∈ d.nodes := getDependencies_ne_nil_mem_nodes hinv (by
        intro hnil
        rw [hnil] at hdup
        cases hdup)
      have haddk : (d.addNode f).addNode t = d := by
        rw [addNode_of_mem hfn]
        exact addNode_of_mem htn
      have := addEdge_eq_duplicate (d := d) hft (by rw [haddk]; exact hdup)
      rw [haddk] at this
      exact this
    · have hdup₂ : f ∉ ((d.addNode f).addNode t).getDependencies t := by
        rw [hdeps₂]
        exact hdup
      by_cases hreach : Relation.ReflTransGen (stepF d) t f
      · refine Or.inr (Or.inr (Or.inl ⟨hft, hdup, hreach, ?_⟩))
        rcases reach_endpoints hinv (fun he => hft he.symm) hreach with ⟨htn, hfn⟩
        have haddk : (d.addNode f).addNode t = d := by
          rw [addNode_of_mem hfn]
          exact addNode_of_mem htn
        have hcyc : wouldCreateCycle ((d.addNode f).addNode t) f t = true := by
          unfold wouldCreateCycle
          rw [canReachForward_iff, hstep₂]
          exact hreach
        have := addEdge_eq_cycle hft hdup₂ hcyc
        rw [haddk] at this
        exact this
      · refine Or.inr (Or.inr (Or.inr ⟨hft, hdup, hreach, ?_, ?_⟩))
        all_goals
          have hcyc : wouldCreateCycle ((d.addNode f).addNode t) f t = false := by
            unfold wouldCreateCycle
            rw [show (canReachForward ((d.addNode f).addNode t) t f = false) ↔
              ¬ (canReachForward ((d.addNode f).addNode t) t f = true) from by
                rw [Bool.not_eq_true]]
            rw [canReachForward_iff, hstep₂]
            exact hreach
        · rw [addEdge_eq_added hft hdup₂ hcyc]
        · rw [addEdge_eq_added hft hdup₂ hcyc]
          have htn₂ : t ∈ ((d.addNode f).addNode t).nodes := by
            rw [mem_addNode_nodes]
            exact Or.inr rfl
          simp only
          unfold getDependencies
          rw [mapGet_mapAdjust_self]
          rcases mapGet_isSome_of_mem_keys (m := ((d.addNode f).addNode t).edges)
            (hinv₂.keys_eq.symm ▸ htn₂) with ⟨dl, hdl⟩
          rw [hdl]
          simp only [Option.map_some', Option.getD_some]
          rw [setAdd_mem]
          exact Or.inr rfl

/-! ## Step equations, for evaluating the loops on concrete graphs -/

theorem dfsLoop_nil (d : DAG) (targetId : String) (visited : List String) :
    dfsLoop d targetId visited [] = false := by
  rw [dfsLoop]

theorem dfsLoop_cons (d : DAG) (targetId : String) (visited : List String)
    (current : String) (stackRest : List String) :
    dfsLoop d targetId visited (current :: stackRest) =
      if current ∈ visited then dfsLoop d targetId visited stackRest
      else if targetId ∈ getDependents d current then true
      else dfsLoop d targetId (visited ++ [current])
        (((getDependents d current).filter
          (fun x => x ∉ visited ++ [current])).reverse ++ stackRest) := by
  rw [dfsLoop]

theorem kahnLoop_nil (d : DAG) (inDegree : List (String × Int)) (result : List String) :
    kahnLoop d inDegree [] result = result := by
  rw [kahnLoop]

theorem kahnLoop_cons (d : DAG) (inDegree : List (String × Int)) (node : String)
    (queueRest result : List String) :
    kahnLoop d inDegree (node :: queueRest) result =
      kahnLoop d ((getDependents d node).foldl decrementStep (inDegree, queueRest)).1
        ((getDependents d node).foldl decrementStep (inDegree, queueRest)).2
        (result ++ [node]) := by
  rw [kahnLoop]

end DAG

open DAG

/-! ## Concrete evaluation helpers for the claim witnesses -/

theorem eval_chain1 : applyOps dagEmpty [Op.addEdge "T1" "T2"] =
    ⟨[("T1", []), ("T2", ["T1"])], ["T1", "T2"]⟩ := by
  simp [applyOps, applyOp, DAG.addEdge, DAG.addNode, dagEmpty, mapSetNew,
    DAG.wouldCreateCycle, DAG.canReachForward, mapGet, mapAdjust, setAdd,
    DAG.dfsLoop_cons, DAG.dfsLoop_nil, DAG.getDependents]

theorem eval_chain2 : applyOps dagEmpty [Op.addEdge "T1" "T2", Op.addEdge "T2" "T3"] =
    ⟨[("T1", []), ("T2", ["T1"]), ("T3", ["T2"])], ["T1", "T2", "T3"]⟩ := by
  simp [applyOps, applyOp, DAG.addEdge, DAG.addNode, dagEmpty, mapSetNew,
    DAG.wouldCreateCycle, DAG.canReachForward, mapGet, mapAdjust, setAdd,
    DAG.dfsLoop_cons, DAG.dfsLoop_nil, DAG.getDependents]

theorem eval_abc : applyOps dagEmpty
    [Op.addEdge "A" "B", Op.addEdge "B" "C", Op.removeNode "B"] =
    ⟨[("A", []), ("C", [])], ["A", "C"]⟩ := by
  simp [applyOps, applyOp, DAG.addEdge, DAG.addNode, DAG.removeNode, dagEmpty,
    mapSetNew, DAG.wouldCreateCycle, DAG.canReachForward, mapGet, mapAdjust, setAdd,
    setDelete, DAG.dfsLoop_cons, DAG.dfsLoop_nil, DAG.getDependents]

theorem eval_cycle_attempt :
    (applyOps dagEmpty [Op.addEdge "T1" "T2"]).addEdge "T2" "T1" =
      (.cycle, applyOps dagEmpty [Op.addEdge "T1" "T2"]) := by
  rw [eval_chain1]
  simp [DAG.addEdge, DAG.addNode, mapSetNew, DAG.wouldCreateCycle,
    DAG.canReachForward, mapGet, mapAdjust, setAdd, DAG.dfsLoop_cons,
    DAG.dfsLoop_nil, DAG.getDependents]

theorem length_filter_eq_one_of_nodup_mem {α : Type} [DecidableEq α]
    {l : List α} (hnd : l.Nodup) {a : α} (ha : a ∈ l) :
    (l.filter (fun p => p = a)).length = 1 := by
  induction l with
  | nil => cases ha
  | cons x rest ih =>
    rcases List.nodup_cons.mp hnd with ⟨hx, hndr⟩
    by_cases hxa : x = a
    · subst hxa
      rw [List.filter_cons]
      simp only [decide_True, if_pos]
      have hrest : rest.filter (fun p => p = x) = [] := by
        rw [List.filter_eq_nil_iff]
        intro p hp
        simp only [decide_eq_true_eq]
        exact fun he => hx (he ▸ hp)
      rw [hrest]
      rfl
    · rw [List.filter_cons]
      have hmem : a ∈ rest := by
        rcases List.mem_cons.mp ha with he | hm
        · exact absurd he.symm hxa
        · exact hm
      simp only [hxa, decide_False, Bool.false_eq_true, if_neg, not_false_iff]
      exact ih hndr hmem

/-! ## The claims -/

/-- C9: after every sequence of operations starting from the empty graph,
the key list of the adjacency map equals the node list exactly, and every
identifier appearing in any node's blocker set is itself in the node set. -/
theorem C9_adjacency_keys_match_nodes (ops : List Op) :
    (applyOps dagEmpty ops).edges.map Prod.fst = (applyOps dagEmpty ops).nodes ∧
    ∀ p ∈ (applyOps dagEmpty ops).edges, ∀ x ∈ p.2, x ∈ (applyOps dagEmpty ops).nodes := by
  have hinv := invariants_applyOps invariants_empty ops
  exact ⟨hinv.keys_eq, hinv.deps_mem⟩

theorem C9_adjacency_keys_match_nodes_witness :
    "T1" ∈ (applyOps dagEmpty [Op.addEdge "T1" "T2"]).nodes :=
  (C9_adjacency_keys_match_nodes [Op.addEdge "T1" "T2"]).2 ("T2", ["T1"])
    (by rw [eval_chain1]; simp) "T1" (by simp)

/-- C10: for an identifier outside the node set (on an invariant-respecting
graph), `getDependencies` and `getDependents` return the empty set and
`canMoveTo` accepts any target index against any candidate order. -/
theorem C10_canMoveTo_unknown_id (d : DAG) (id : String) (t : Nat)
    (order : List String) (hinv : Invariants d) (hid : id ∉ d.nodes) :
    d.getDependencies id = [] ∧ d.getDependents id = [] ∧
      d.canMoveTo id t order = true := by
  have hdeps : d.getDependencies id = [] := by
    unfold DAG.getDependencies
    rw [(mapGet_none_iff _ _).mpr (fun hm => hid (hinv.keys_eq ▸ hm))]
    rfl
  have hdepts : d.getDependents id = [] := by
    unfold DAG.getDependents
    rw [show d.edges.filter (fun p => id ∈ p.2) = [] from List.filter_eq_nil_iff.mpr ?_]
    · rfl
    · intro p hp
      simp only [decide_eq_true_eq]
      exact fun hin => hid (hinv.deps_mem p hp id hin)
  refine ⟨hdeps, hdepts, ?_⟩
  unfold DAG.canMoveTo
  rw [hdeps, hdepts]
  rfl

theorem C10_canMoveTo_unknown_id_witness :
    dagEmpty.getDependencies "z" = [] ∧ dagEmpty.getDependents "z" = [] ∧
      dagEmpty.canMoveTo "z" 0 ["a", "b"] = true :=
  C10_canMoveTo_unknown_id dagEmpty "z" 0 ["a", "b"] invariants_empty (by simp [dagEmpty])

/-- C7: `removeNode` removes the id from the node set, from the adjacency
map and from every remaining dependency set, and is a no-op for an unknown
id; concretely, after `addEdge(A,B)`, `addEdge(B,C)` and `removeNode(B)`,
no edge mentions `B` and `C`'s dependencies no longer contain `B`. -/
theorem C7_removeNode_cascades :
    (∀ (d : DAG) (id : String),
      (id ∉ d.nodes → d.removeNode id = d) ∧
      id ∉ (d.removeNode id).nodes ∧
      (id ∈ d.nodes → id ∉ (d.removeNode id).edges.map Prod.fst ∧
        ∀ p ∈ (d.removeNode id).edges, id ∉ p.2)) ∧
    (∀ p ∈ DAG.getAllEdges (applyOps dagEmpty
        [Op.addEdge "A" "B", Op.addEdge "B" "C", Op.removeNode "B"]),
      p.1 ≠ "B" ∧ p.2 ≠ "B") ∧
    "B" ∉ (applyOps dagEmpty
        [Op.addEdge "A" "B", Op.addEdge "B" "C", Op.removeNode "B"]).getDependencies
        "C" := by
  refine ⟨?_, ?_, ?_⟩
  · intro d id
    refine ⟨?_, ?_, ?_⟩
    · intro hid
      unfold DAG.removeNode
      rw [if_neg hid]
    · by_cases hid : id ∈ d.nodes
      · unfold DAG.removeNode
        rw [if_pos hid]
        intro hmem
        exact ((setDelete_mem _ _ _).mp hmem).2 rfl
      · unfold DAG.removeNode
        rw [if_neg hid]
        exact hid
    · intro hid
      unfold DAG.removeNode
      rw [if_pos hid]
      constructor
      · intro hmem
        simp only [List.map_map] at hmem
        rcases List.mem_map.mp hmem with ⟨p, hp, he⟩
        have hne := List.mem_filter.mp hp
        have hp1 : p.1 = id := he
        have hne' : p.1 ≠ id := by simpa using hne.2
        exact hne' hp1
      · intro p hp
        rcases List.mem_map.mp hp with ⟨q, _, rfl⟩
        intro hmem
        exact ((setDelete_mem _ _ _).mp hmem).2 rfl
  · rw [eval_abc]
    decide
  · rw [eval_abc]
    decide

theorem C7_removeNode_cascades_witness :
    dagEmpty.removeNode "q" = dagEmpty :=
  ((C7_removeNode_cascades.1 dagEmpty "q").1) (by simp [dagEmpty])

/-- C8: on an invariant-respecting graph, every failing `addEdge` (self-loop,
duplicate or cycle outcome) returns the graph unchanged; and a self-loop
`addEdge(x, x)` fails without mutating any graph whatsoever, even when `x`
is not a node yet. -/
theorem C8_failed_addEdge_leaves_state (d : DAG) (f t : String)
    (hinv : Invariants d) :
    (∀ r d', d.addEdge f t = (r, d') → r ≠ .added → d' = d) ∧
    (∀ (d₀ : DAG) (x : String), d₀.addEdge x x = (.selfLoop, d₀)) := by
  constructor
  · intro r d' heq hr
    rcases addEdge_cases hinv f t with ⟨_, hc⟩ | ⟨_, _, hc⟩ | ⟨_, _, _, hc⟩ |
      ⟨_, _, _, hc, _⟩
    · rw [heq] at hc
      exact ((Prod.mk.injEq _ _ _ _ |>.mp hc.symm).2).symm
    · rw [heq] at hc
      exact ((Prod.mk.injEq _ _ _ _ |>.mp hc.symm).2).symm
    · rw [heq] at hc
      exact ((Prod.mk.injEq _ _ _ _ |>.mp hc.symm).2).symm
    · rw [heq] at hc
      exact absurd hc hr
  · intro d₀ x
    exact addEdge_eq_selfLoop rfl

theorem C8_failed_addEdge_leaves_state_witness :
    ((applyOps dagEmpty [Op.addEdge "T1" "T2"]).addEdge "T2" "T1").2 =
      applyOps dagEmpty [Op.addEdge "T1" "T2"] ∧
    dagEmpty.addEdge "x" "x" = (.selfLoop, dagEmpty) := by
  constructor
  · refine (C8_failed_addEdge_leaves_state (applyOps dagEmpty [Op.addEdge "T1" "T2"])
      "T2" "T1" (invariants_applyOps invariants_empty _)).1
      ((applyOps dagEmpty [Op.addEdge "T1" "T2"]).addEdge "T2" "T1").1 _ rfl ?_
    rw [eval_cycle_attempt]
    decide
  · exact (C8_failed_addEdge_leaves_state dagEmpty "x" "x" invariants_empty).2 dagEmpty "x"

/-- C2: on an invariant-respecting graph, for `blocker ≠ blocked` with the
edge not already present, `addEdge` fails with the cycle outcome and leaves
the graph unchanged exactly when `blocker` is reachable from `blocked`
along the derived dependents relation; otherwise the call succeeds and the
edge is present afterwards. -/
theorem C2_addEdge_cycle_iff_reachable (d : DAG) (f t : String)
    (hinv : Invariants d) (hft : f ≠ t) (hdup : f ∉ d.getDependencies t) :
    (d.addEdge f t = (.cycle, d) ↔ Relation.ReflTransGen (stepF d) t f) ∧
    (¬ Relation.ReflTransGen (stepF d) t f →
      (d.addEdge f t).1 = .added ∧ f ∈ (d.addEdge f t).2.getDependencies t) := by
  rcases addEdge_cases hinv f t with ⟨he, _⟩ | ⟨_, hd, _⟩ | ⟨_, _, hreach, hc⟩ |
    ⟨_, _, hnreach, hadd, hmem⟩
  · exact absurd he hft
  · exact absurd hd hdup
  · constructor
    · exact ⟨fun _ => hreach, fun _ => hc⟩
    · intro hn
      exact absurd hreach hn
  · constructor
    · constructor
      · intro heq
        have := congrArg Prod.fst heq
        rw [hadd] at this
        cases this
      · intro hreach
        exact absurd hreach hnreach
    · intro _
      exact ⟨hadd, hmem⟩

theorem C2_addEdge_cycle_iff_reachable_witness :
    (applyOps dagEmpty [Op.addEdge "T1" "T2"]).addEdge "T2" "T1" =
      (.cycle, applyOps dagEmpty [Op.addEdge "T1" "T2"]) := by
  refine (C2_addEdge_cycle_iff_reachable (applyOps dagEmpty [Op.addEdge "T1" "T2"])
    "T2" "T1" (invariants_applyOps invariants_empty _) (by decide) ?_).1.mpr ?_
  · rw [eval_chain1]
    decide
  · refine Relation.ReflTransGen.single ?_
    rw [eval_chain1]
    decide

/-- C5: on an invariant-respecting graph, `addEdge` with a blocker already
in the blocked node's dependency set fails with the duplicate outcome and
changes nothing; in particular after a successful `addEdge` the identical
call is rejected as a duplicate and the stored edge list holds the pair
exactly once. -/
theorem C5_duplicate_edge_rejected (d : DAG) (f t : String) (hinv : Invariants d) :
    (f ∈ d.getDependencies t → d.addEdge f t = (.duplicate, d)) ∧
    (∀ d₁, d.addEdge f t = (.added, d₁) →
      d₁.addEdge f t = (.duplicate, d₁) ∧
      ((DAG.getAllEdges d₁).filter (fun p => p = (f, t))).length = 1) := by
  have hdupbranch : ∀ (c : DAG), Invariants c → f ∈ c.getDependencies t →
      c.addEdge f t = (.duplicate, c) := by
    intro c hc hdup
    rcases addEdge_cases hc f t with ⟨he, _⟩ | ⟨_, _, hc'⟩ | ⟨_, hd, _, _⟩ |
      ⟨_, hd, _, _, _⟩
    · exfalso
      subst he
      have hstep : stepF c f f :=
        (stepF_iff_mem_getDependencies (hc.keys_eq ▸ hc.nodup_nodes) f f).mpr hdup
      exact hc.acyclic f (Relation.TransGen.single hstep)
    · exact hc'
    · exact absurd hdup hd
    · exact absurd hdup hd
  constructor
  · exact hdupbranch d hinv
  · intro d₁ heq
    have hinv₁ : Invariants d₁ := by
      have := invariants_addEdge hinv f t
      rw [heq] at this
      exact this
    have hmem : f ∈ d₁.getDependencies t := by
      rcases addEdge_cases hinv f t with ⟨_, hc⟩ | ⟨_, _, hc⟩ | ⟨_, _, _, hc⟩ |
        ⟨_, _, _, _, hm⟩
      · rw [heq] at hc
        cases (Prod.mk.injEq _ _ _ _ |>.mp hc.symm).1
      · rw [heq] at hc
        cases (Prod.mk.injEq _ _ _ _ |>.mp hc.symm).1
      · rw [heq] at hc
        cases (Prod.mk.injEq _ _ _ _ |>.mp hc.symm).1
      · rw [heq] at hm
        exact hm
    refine ⟨hdupbranch d₁ hinv₁ hmem, ?_⟩
    exact length_filter_eq_one_of_nodup_mem (getAllEdges_nodup hinv₁)
      ((mem_getAllEdges_iff_getDependencies hinv₁ f t).mpr hmem)

theorem C5_duplicate_edge_rejected_witness :
    (applyOps dagEmpty [Op.addEdge "T1" "T2"]).addEdge "T1" "T2" =
      (.duplicate, applyOps dagEmpty [Op.addEdge "T1" "T2"]) := by
  refine (C5_duplicate_edge_rejected (applyOps dagEmpty [Op.addEdge "T1" "T2"])
    "T1" "T2" (invariants_applyOps invariants_empty _)).1 ?_
  rw [eval_chain1]
  decide

/-- C6: `canMoveTo(id, t, order)` returns `true` exactly when every direct
blocker found in the order sits strictly before index `t` and every direct
dependent found in the order sits at or after index `t` (absent entries
unconstrained); in particular with edges `(T1,T2)` and `(T2,T3)`,
`canMoveTo(T3, 0, [T3,T1,T2])` is `false`. -/
theorem C6_canMoveTo_index_check :
    (∀ (d : DAG) (id : String) (t : Nat) (order : List String),
      d.canMoveTo id t order = true ↔
        ((∀ dep ∈ d.getDependencies id, ∀ i, indexOfOpt order dep = some i → i < t) ∧
         (∀ dep ∈ d.getDependents id, ∀ i, indexOfOpt order dep = some i → t ≤ i))) ∧
    (applyOps dagEmpty [Op.addEdge "T1" "T2", Op.addEdge "T2" "T3"]).canMoveTo
      "T3" 0 ["T3", "T1", "T2"] = false := by
  refine ⟨canMoveTo_iff, ?_⟩
  rw [eval_chain2]
  decide

theorem C6_canMoveTo_index_check_witness :
    dagEmpty.canMoveTo "a" 0 ["b"] = true := by
  refine (C6_canMoveTo_index_check.1 dagEmpty "a" 0 ["b"]).mpr ⟨?_, ?_⟩
  · intro dep hdep
    exact absurd hdep (List.not_mem_nil dep)
  · intro dep hdep
    exact absurd hdep (List.not_mem_nil dep)

/-- C1: after any sequence of mutations starting from the empty graph,
`topologicalSort` returns a permutation of the node set (each node exactly
once) and lists the blocker strictly before the blocked node of every
stored edge. -/
theorem C1_topologicalSort_covers_and_orders (ops : List Op) :
    (DAG.topologicalSort (applyOps dagEmpty ops)).Perm (applyOps dagEmpty ops).nodes ∧
    ∀ b k, (b, k) ∈ DAG.getAllEdges (applyOps dagEmpty ops) →
      (DAG.topologicalSort (applyOps dagEmpty ops)).indexOf b <
        (DAG.topologicalSort (applyOps dagEmpty ops)).indexOf k := by
  have hinv := invariants_applyOps invariants_empty ops
  have hts := topologicalSort_eq_kahnResult hinv
  rcases kahnResult_spec hinv with ⟨hperm, hsort⟩
  rw [hts]
  refine ⟨hperm, ?_⟩
  intro b k hmem
  have hdep : b ∈ (applyOps dagEmpty ops).getDependencies k :=
    (mem_getAllEdges_iff_getDependencies hinv b k).mp hmem
  have hkn : k ∈ (applyOps dagEmpty ops).nodes :=
    getDependencies_ne_nil_mem_nodes hinv (by
      intro hnil
      rw [hnil] at hdep
      cases hdep)
  have hsub := hsort k hkn b hdep
  have hnd : (kahnResult (applyOps dagEmpty ops)).Nodup :=
    (hperm.nodup_iff).mpr hinv.nodup_nodes
  exact indexOf_lt_of_sublist_pair hnd hsub

theorem C1_topologicalSort_covers_and_orders_witness :
    (DAG.topologicalSort (applyOps dagEmpty
        [Op.addEdge "T1" "T2", Op.addEdge "T2" "T3"])).indexOf "T1" <
      (DAG.topologicalSort (applyOps dagEmpty
        [Op.addEdge "T1" "T2", Op.addEdge "T2" "T3"])).indexOf "T2" := by
  refine (C1_topologicalSort_covers_and_orders
    [Op.addEdge "T1" "T2", Op.addEdge "T2" "T3"]).2 "T1" "T2" ?_
  rw [eval_chain2]
  decide

/-- C3: serializing an invariant-respecting graph to the `{nodes, edges}`
form and replaying it through `addNode`/`addEdge` reconstructs exactly the
same node set and the same edge set. -/
theorem C3_serialize_deserialize_roundtrip (d : DAG) (hinv : Invariants d) :
    (deserializeDAG (serializeDAG d)).nodes = d.nodes ∧
    DAG.getAllEdges (deserializeDAG (serializeDAG d)) = DAG.getAllEdges d := by
  rw [deserialize_serialize hinv]
  exact ⟨rfl, rfl⟩

theorem C3_serialize_deserialize_roundtrip_witness :
    (deserializeDAG (serializeDAG (applyOps dagEmpty
        [Op.addEdge "T1" "T2", Op.addEdge "T2" "T3"]))).nodes =
      (applyOps dagEmpty [Op.addEdge "T1" "T2", Op.addEdge "T2" "T3"]).nodes :=
  (C3_serialize_deserialize_roundtrip _
    (invariants_applyOps invariants_empty _)).1

/-- C4, counterexample: on a graph whose stored edges form the two-cycle
`a ↔ b`, the Kahn phase covers fewer than `|S|` nodes, yet
`topologicalSort` returns precisely the full node list in insertion order —
the best-effort re-ordered set of all nodes, indistinguishable by type or
value from a successful sort of an edgeless two-node graph — rather than
any distinct, flagged invariant-violation result. -/
theorem C4_fallback_counterexample :
    (DAG.kahnResult ⟨[("a", ["b"]), ("b", ["a"])], ["a", "b"]⟩).length ≠
      (⟨[("a", ["b"]), ("b", ["a"])], ["a", "b"]⟩ : DAG).nodes.length ∧
    DAG.topologicalSort ⟨[("a", ["b"]), ("b", ["a"])], ["a", "b"]⟩ =
      (⟨[("a", ["b"]), ("b", ["a"])], ["a", "b"]⟩ : DAG).nodes ∧
    DAG.topologicalSort ⟨[("a", ["b"]), ("b", ["a"])], ["a", "b"]⟩ =
      DAG.topologicalSort ⟨[("a", []), ("b", [])], ["a", "b"]⟩ := by
  refine ⟨?_, ?_, ?_⟩ <;>
    simp [DAG.topologicalSort, DAG.kahnResult, DAG.buildInDegree, degSet, degGet,
      DAG.kahnLoop_cons, DAG.kahnLoop_nil, DAG.getDependents, decrementStep]

/-- C4, amended: whenever the Kahn phase produces fewer than `|S|` nodes,
`topologicalSort` logs a console warning and returns the plain node list in
insertion order (a best-effort fallback), not a distinct flagged result. -/
theorem C4_fallback_returns_all_nodes (d : DAG)
    (h : (DAG.kahnResult d).length ≠ d.nodes.length) :
    DAG.topologicalSort d = d.nodes := by
  unfold DAG.topologicalSort
  rw [if_pos h]

theorem C4_fallback_returns_all_nodes_witness :
    DAG.topologicalSort ⟨[("a", ["b"]), ("b", ["a"])], ["a", "b"]⟩ =
      (⟨[("a", ["b"]), ("b", ["a"])], ["a", "b"]⟩ : DAG).nodes := by
  refine C4_fallback_returns_all_nodes _ ?_
  simp [DAG.kahnResult, DAG.buildInDegree, degSet, degGet,
    DAG.kahnLoop_cons, DAG.kahnLoop_nil, DAG.getDependents, decrementStep]
